import Mathlib

/-!
# Verification of the maze generator and solver (`src/maze_generator.py`)

Shallow embedding of the algorithmic core of the repository:

* `MazeGenerator.generate_maze` (randomized depth-first carving, extra-path
  injection, endpoint placement, 180-degree rotation), and
* `MazeSolver.solve_bfs` / `MazeSolver.solve_dfs` (path search).

Modelling conventions:

* A grid (`self.maze`, a dense list of lists of ints) is a `Grid`: explicit
  integer dimensions plus a cell-state function `Int → Int → Nat`
  (`cell y x` is Python's `maze[y][x]`).  Cell states: `0` passage, `1` wall,
  `2` entry, `3` exit.
* Python list writes `maze[y][x] = v` are bounds checked (`store`): an
  out-of-range index yields `Except.error "IndexError"` exactly where CPython
  would raise.  (Negative-index wraparound never occurs on any reachable
  write, so the plain range check is faithful.)
* The process-wide random source is an oracle `Nat → Nat`; each draw consumes
  one oracle value.  `random.shuffle` followed by `random.choice` over the
  collected candidate list is absorbed into a single oracle-chosen index into
  the canonically ordered candidate list (the set of reachable choices is
  identical); `random.randrange(lo, hi)` is `lo + draw % (hi - lo)`, raising
  `ValueError` on an empty range exactly as Python does.
* `int((width * height) * density)` on the float densities `0.08 / 0.002 /
  0.001` is modelled by exact rational truncation; no claim depends on the
  numeric value of this count.
* The `while` / recursion of carving, BFS and DFS runs on a structural fuel
  argument with an explicitly proved sufficient bound, keeping every
  definition kernel-computable; fuel exhaustion is a sentinel
  (`Except.error "fuel"` / `none`) proved unreachable.
* Solver methods read `self.maze` but never write it; the embedding threads
  the grid through the loop state and returns it, so the frame claim (C10) is
  a real statement about the returned state.
-/

/-- A grid coordinate `(x, y)` as in the source: `x` spans columns, `y` rows. -/
abbrev Pos : Type := Int × Int

/-- The dense 2-D array of cell states (`self.maze` plus its dimensions). -/
structure Grid where
  width : Int
  height : Int
  cell : Int → Int → Nat

/-- The process-wide pseudo-random source: draw `t` is `o t`. -/
abbrev Oracle : Type := Nat → Nat

/-- The three difficulty labels accepted by `MazeGenerator.__init__`. -/
inductive Difficulty where
  | easy
  | medium
  | hard
deriving DecidableEq

/-- Functional update of one cell (the effect of an in-range `maze[y][x] = v`). -/
def gridSet (g : Grid) (y x : Int) (v : Nat) : Grid :=
  { g with cell := fun y2 x2 => if y2 = y ∧ x2 = x then v else g.cell y2 x2 }

/-- Bounds-checked list write `maze[y][x] = v`; out of range is Python's
`IndexError`. -/
def store (g : Grid) (y x : Int) (v : Nat) : Except String Grid :=
  if 0 ≤ y ∧ y < g.height ∧ 0 ≤ x ∧ x < g.width then .ok (gridSet g y x v)
  else .error "IndexError"

/-- Bounds-checked list read `maze[y][x]`. -/
def readCell (g : Grid) (y x : Int) : Except String Nat :=
  if 0 ≤ y ∧ y < g.height ∧ 0 ≤ x ∧ x < g.width then .ok (g.cell y x)
  else .error "IndexError"

/-- Python's `random.randrange(lo, hi)`: a value in `[lo, hi)`, `ValueError`
on an empty range. -/
def randPick (o : Oracle) (t : Nat) (lo hi : Int) : Except String Int :=
  if lo < hi then .ok (lo + (Int.ofNat (o t)) % (hi - lo)) else .error "ValueError"

/-- The generator's two-cell carving directions `[(0,2),(2,0),(0,-2),(-2,0)]`
(`self.directions` of `MazeGenerator`; the in-place shuffle is absorbed into
the oracle's choice). -/
def genDirs : List Pos := [(0, 2), (2, 0), (0, -2), (-2, 0)]

/-- The unit directions `[(0,1),(1,0),(0,-1),(-1,0)]` (`self.directions` of
`MazeSolver`, also hard-coded in `_add_extra_paths`). -/
def unitDirs : List Pos := [(0, 1), (1, 0), (0, -1), (-1, 0)]

/-- In-range test `0 <= x < width and 0 <= y < height` for a coordinate. -/
def InRange (g : Grid) (p : Pos) : Prop :=
  0 ≤ p.1 ∧ p.1 < g.width ∧ 0 ≤ p.2 ∧ p.2 < g.height

instance (g : Grid) (p : Pos) : Decidable (InRange g p) :=
  inferInstanceAs (Decidable
    (0 ≤ p.1 ∧ p.1 < g.width ∧ 0 ≤ p.2 ∧ p.2 < g.height))

/-- The solvers' traversability guard: in range and not a wall
(`0 <= new_x < self.width and 0 <= new_y < self.height and
self.maze[new_y][new_x] != 1`). -/
def Passable (g : Grid) (p : Pos) : Prop :=
  InRange g p ∧ g.cell p.2 p.1 ≠ 1

instance (g : Grid) (p : Pos) : Decidable (Passable g p) :=
  inferInstanceAs (Decidable (InRange g p ∧ g.cell p.2 p.1 ≠ 1))

/-! ## The maze generator -/

/-- The candidate carving directions from cell `c`: those whose two-step
target is strictly inside the border (`0 < next < dim - 1`) and unvisited. -/
def carveNbrs (g : Grid) (v : Finset Pos) (c : Pos) : List Pos :=
  genDirs.filter fun d =>
    decide (0 < c.1 + d.1 ∧ c.1 + d.1 < g.width - 1 ∧
      0 < c.2 + d.2 ∧ c.2 + d.2 < g.height - 1 ∧ (c.1 + d.1, c.2 + d.2) ∉ v)

/-- The carving `while stack:` loop.  The stack top is the list head
(Python appends and pops at the end and inspects `stack[-1]`).  On a step the
midpoint wall and the chosen neighbor are cleared to passage, the neighbor is
pushed and marked visited; with no candidate the top is popped. -/
def carveLoop (o : Oracle) : Nat → Grid → List Pos → Finset Pos → Nat →
    Except String (Grid × Nat)
  | 0, _, _, _, _ => .error "fuel"
  | Nat.succ fuel, g, stack, v, t =>
    match stack with
    | [] => .ok (g, t)
    | c :: rest =>
      match carveNbrs g v c with
      | [] => carveLoop o fuel g rest v t
      | d0 :: ds =>
        let nbrs := d0 :: ds
        let d := nbrs.getD (o t % nbrs.length) (0, 0)
        let n : Pos := (c.1 + d.1, c.2 + d.2)
        match store g (c.2 + d.2 / 2) (c.1 + d.1 / 2) 0 with
        | .error m => .error m
        | .ok g1 =>
          match store g1 n.2 n.1 0 with
          | .error m => .error m
          | .ok g2 => carveLoop o fuel g2 (n :: c :: rest) (insert n v) (t + 1)

/-- Fuel bound for the carving loop. -/
def carveFuel (g : Grid) : Nat := 2 * (g.width.toNat * g.height.toNat) + 2

/-- One candidate count of `_add_extra_paths`: how many of the four unit
neighbors of `(x, y)` are passages. -/
def passageCount (g : Grid) (x y : Int) : Nat :=
  (unitDirs.filter fun d => decide (g.cell (y + d.2) (x + d.1) = 0)).length

/-- The `for _ in range(extra_paths_count):` loop of `_add_extra_paths`:
pick a random cell with `x, y ∈ [2, dim - 3]`; a wall there with at least two
passage neighbors is cleared. -/
def extraLoop (o : Oracle) : Nat → Grid → Nat → Except String (Grid × Nat)
  | 0, g, t => .ok (g, t)
  | Nat.succ k, g, t =>
    match randPick o t 2 (g.width - 2) with
    | .error m => .error m
    | .ok x =>
      match randPick o (t + 1) 2 (g.height - 2) with
      | .error m => .error m
      | .ok y =>
        if g.cell y x = 1 then
          if 2 ≤ passageCount g x y then
            match store g y x 0 with
            | .error m => .error m
            | .ok g2 => extraLoop o k g2 (t + 2)
          else extraLoop o k g (t + 2)
        else extraLoop o k g (t + 2)

/-- The truncated extra-path count `int((width * height) * density)` with the
densities `easy ↦ 0.08`, `medium ↦ 0.002`, `hard ↦ 0.001`, modelled by exact
rational truncation. -/
def extraCount (w h : Int) : Difficulty → Nat
  | .easy => (w * h * 8 / 100).toNat
  | .medium => (w * h * 2 / 1000).toNat
  | .hard => (w * h * 1 / 1000).toNat

/-- `_set_start_end`: entry `2` at `(1,1)`, exit `3` at
`(height-2, width-2)`, and four adjacent cells force-cleared to passage. -/
def setStartEnd (g : Grid) : Except String Grid := do
  let h := g.height
  let w := g.width
  let g1 ← store g 1 1 2
  let g2 ← store g1 (h - 2) (w - 2) 3
  let g3 ← store g2 1 2 0
  let g4 ← store g3 2 1 0
  let g5 ← store g4 (h - 2) (w - 3) 0
  store g5 (h - 3) (w - 2) 0

/-- The pure row-and-column reversal
`[row[::-1] for row in self.maze[::-1]]`. -/
def rotGrid (g : Grid) : Grid :=
  { g with cell := fun y x => g.cell (g.height - 1 - y) (g.width - 1 - x) }

/-- `_rotate_maze`: reverse rows and columns, then swap the two cells
`maze[1][1]` and `maze[height-2][width-2]`. -/
def rotateMaze (g : Grid) : Except String Grid := do
  let gr := rotGrid g
  let a ← readCell gr 1 1
  let b ← readCell gr (gr.height - 2) (gr.width - 2)
  let g1 ← store gr 1 1 b
  store g1 (gr.height - 2) (gr.width - 2) a

/-- `MazeGenerator.__init__` plus `generate_maze`: even dimensions are
incremented to odd, all cells start as walls, `(1,1)` is cleared and carved
from, then extra paths, endpoint placement and the 180-degree rotation. -/
def generateMaze (o : Oracle) (d : Difficulty) (width height : Int) :
    Except String Grid :=
  let w := if width % 2 = 1 then width else width + 1
  let h := if height % 2 = 1 then height else height + 1
  let g0 : Grid := ⟨w, h, fun _ _ => 1⟩
  do
    let g1 ← store g0 1 1 0
    let r ← carveLoop o (carveFuel g0) g1 [(1, 1)] {(1, 1)} 0
    let r2 ← extraLoop o (extraCount w h d) r.1 r.2
    let g4 ← setStartEnd r2.1
    rotateMaze g4

/-! ## The maze solver -/

/-- The row-major scan order of `_find_start` / `_find_end`. -/
def scanList (g : Grid) : List Pos :=
  (List.range g.height.toNat).flatMap fun y =>
    (List.range g.width.toNat).map fun x : Nat => ((x : Int), (y : Int))

/-- `_find_start`: the first cell marked `2` in row-major order, defaulting
to `(1, 1)`. -/
def findStart (g : Grid) : Pos :=
  ((scanList g).find? fun p => g.cell p.2 p.1 = 2).getD (1, 1)

/-- `_find_end`: the first cell marked `3` in row-major order, defaulting to
`(width - 2, height - 2)`. -/
def findEnd (g : Grid) : Pos :=
  ((scanList g).find? fun p => g.cell p.2 p.1 = 3).getD
    (g.width - 2, g.height - 2)

/-- The solvers' direction loop for BFS: each passable unvisited neighbor is
marked visited and enqueued (at the back) with its extended path. -/
def bfsEnqueue (g : Grid) (c : Pos) (p : List Pos) :
    List Pos → List (Pos × List Pos) → Finset Pos →
    List (Pos × List Pos) × Finset Pos
  | [], q, v => (q, v)
  | d :: ds, q, v =>
    let n : Pos := (c.1 + d.1, c.2 + d.2)
    if Passable g n ∧ n ∉ v then
      bfsEnqueue g c p ds (q ++ [(n, p ++ [n])]) (insert n v)
    else bfsEnqueue g c p ds q v

/-- The `while queue:` loop of `solve_bfs`: pop the front entry, return its
path on reaching `e`, otherwise enqueue the fresh neighbors; an empty queue
returns the empty path.  The grid is threaded through the state and returned. -/
def bfsLoop (e : Pos) : Nat → Grid → List (Pos × List Pos) → Finset Pos →
    Option (List Pos × Grid)
  | 0, _, _, _ => none
  | Nat.succ fuel, g, q, v =>
    match q with
    | [] => some ([], g)
    | (c, p) :: rest =>
      if c = e then some (p, g)
      else
        let qv := bfsEnqueue g c p unitDirs rest v
        bfsLoop e fuel g qv.1 qv.2

/-- Fuel bound for the BFS loop. -/
def solveFuel (g : Grid) : Nat := 2 * (g.width.toNat * g.height.toNat) + 3

/-- `solve_bfs` as the method's (return value, post `self.maze`) pair. -/
def solveBFSFull (g : Grid) : List Pos × Grid :=
  let s := findStart g
  (bfsLoop (findEnd g) (solveFuel g) g [(s, [s])] {s}).getD ([], g)

/-- The path returned by `solve_bfs`. -/
def solveBFS (g : Grid) : List Pos := (solveBFSFull g).1

/-- The recursive `dfs` body of `solve_dfs` after its entry actions: `c` is
the current cell (already in `visited`, already the last element of `path`),
and the four directions are tried in order.  A neighbor equal to the end is
appended and the search succeeds (Python's `dfs` returns `True` before adding
the end to `visited`); otherwise the neighbor is visited, appended and
explored, and on failure popped again.  The grid is threaded through the
state. -/
def dfsDirs (e : Pos) : Nat → Grid → Pos → List Pos → Finset Pos → List Pos →
    Option (Bool × List Pos × Finset Pos × Grid)
  | 0, _, _, _, _, _ => none
  | Nat.succ fuel, g, c, ds, v, p =>
    match ds with
    | [] => some (false, p, v, g)
    | d :: rest =>
      let n : Pos := (c.1 + d.1, c.2 + d.2)
      if Passable g n ∧ n ∉ v then
        if n = e then some (true, p ++ [n], v, g)
        else
          match dfsDirs e fuel g n unitDirs (insert n v) (p ++ [n]) with
          | none => none
          | some (true, p2, v2, g2) => some (true, p2, v2, g2)
          | some (false, p2, v2, g2) => dfsDirs e fuel g2 c rest v2 p2.dropLast
      else dfsDirs e fuel g c rest v p

/-- Fuel bound for the DFS recursion. -/
def dfsFuel (g : Grid) : Nat := 5 * (g.width.toNat * g.height.toNat) + 6

/-- `solve_dfs` as the method's (return value, post `self.maze`) pair:
`path = [start]`, then `dfs(*start)` (immediately true when start is the
end), and the final `path` is returned whether or not the end was reached. -/
def solveDFSFull (g : Grid) : List Pos × Grid :=
  let s := findStart g
  let e := findEnd g
  if s = e then ([s], g)
  else
    match dfsDirs e (dfsFuel g) g s unitDirs {s} [s] with
    | some (_, p, _, g2) => (p, g2)
    | none => ([s], g)

/-- The path returned by `solve_dfs`. -/
def solveDFS (g : Grid) : List Pos := (solveDFSFull g).1

/-! ## Specification-side notions -/

/-- One orthogonal unit step: the coordinates differ by exactly one unit in
exactly one axis. -/
def UnitStep (a b : Pos) : Prop :=
  (b.1 = a.1 ∧ (b.2 = a.2 + 1 ∨ a.2 = b.2 + 1)) ∨
    (b.2 = a.2 ∧ (b.1 = a.1 + 1 ∨ a.1 = b.1 + 1))

instance (a b : Pos) : Decidable (UnitStep a b) :=
  inferInstanceAs (Decidable
    ((b.1 = a.1 ∧ (b.2 = a.2 + 1 ∨ a.2 = b.2 + 1)) ∨
      (b.2 = a.2 ∧ (b.1 = a.1 + 1 ∨ a.1 = b.1 + 1))))

/-- A path as the solvers produce and the spec describes it: nonempty, from
`s` to `e`, consecutive cells one orthogonal unit apart, and every cell after
the first in range and not a wall. -/
def ValidPath (g : Grid) (s e : Pos) (p : List Pos) : Prop :=
  p.head? = some s ∧ p.getLast? = some e ∧ p.Chain' UnitStep ∧
    ∀ z ∈ p.tail, Passable g z

instance (g : Grid) (s e : Pos) (p : List Pos) : Decidable (ValidPath g s e p) :=
  inferInstanceAs (Decidable
    (p.head? = some s ∧ p.getLast? = some e ∧ p.Chain' UnitStep ∧
      ∀ z ∈ p.tail, Passable g z))

/-- The finite set of in-range coordinates of a grid. -/
def gridCells (g : Grid) : Finset Pos :=
  Finset.Icc 0 (g.width - 1) ×ˢ Finset.Icc 0 (g.height - 1)

/-- Exactly the cell `c` holds state `k` (used for the Entry / Exit cells). -/
def UniqueCell (g : Grid) (k : Nat) (c : Pos) : Prop :=
  c ∈ gridCells g ∧ g.cell c.2 c.1 = k ∧
    ∀ p ∈ gridCells g, g.cell p.2 p.1 = k → p = c

instance (g : Grid) (k : Nat) (c : Pos) : Decidable (UniqueCell g k c) :=
  inferInstanceAs (Decidable
    (c ∈ gridCells g ∧ g.cell c.2 c.1 = k ∧
      ∀ p ∈ gridCells g, g.cell p.2 p.1 = k → p = c))

/-- The rows of a grid as lists, for concrete evaluation. -/
def gridRows (g : Grid) : List (List Nat) :=
  (List.range g.height.toNat).map fun y =>
    (List.range g.width.toNat).map fun x => g.cell (y : Int) (x : Int)

/-! ## Basic facts about grids, cells and stores -/

theorem gridSet_width (g : Grid) (y x : Int) (v : Nat) :
    (gridSet g y x v).width = g.width := rfl

theorem gridSet_height (g : Grid) (y x : Int) (v : Nat) :
    (gridSet g y x v).height = g.height := rfl

theorem gridSet_cell_self (g : Grid) (y x : Int) (v : Nat) :
    (gridSet g y x v).cell y x = v := by
  simp [gridSet]

theorem gridSet_cell_of_ne (g : Grid) (y x : Int) (v : Nat) {y2 x2 : Int}
    (h : ¬(y2 = y ∧ x2 = x)) : (gridSet g y x v).cell y2 x2 = g.cell y2 x2 := by
  simp only [gridSet]
  simp [h]

theorem store_eq_ok {g : Grid} {y x : Int} {v : Nat} {g2 : Grid}
    (h : store g y x v = .ok g2) :
    (0 ≤ y ∧ y < g.height ∧ 0 ≤ x ∧ x < g.width) ∧ g2 = gridSet g y x v := by
  by_cases hc : 0 ≤ y ∧ y < g.height ∧ 0 ≤ x ∧ x < g.width
  · refine ⟨hc, ?_⟩
    simp only [store, if_pos hc] at h
    exact (Except.ok.inj h).symm
  · simp only [store, if_neg hc] at h
    exact absurd h (by simp)

theorem store_ok_of_inRange {g : Grid} {y x : Int} {v : Nat}
    (h : 0 ≤ y ∧ y < g.height ∧ 0 ≤ x ∧ x < g.width) :
    store g y x v = .ok (gridSet g y x v) := by
  simp only [store, if_pos h]

theorem mem_gridCells {g : Grid} {p : Pos} : p ∈ gridCells g ↔ InRange g p := by
  obtain ⟨x, y⟩ := p
  simp only [gridCells, Finset.mem_product, Finset.mem_Icc, InRange]
  omega

theorem card_gridCells (g : Grid) :
    (gridCells g).card = g.width.toNat * g.height.toNat := by
  simp only [gridCells, Finset.card_product, Int.card_Icc]
  have h1 : g.width - 1 + 1 - 0 = g.width := by omega
  have h2 : g.height - 1 + 1 - 0 = g.height := by omega
  rw [h1, h2]

/-- Removing a fresh in-range cell from the unvisited set drops its size. -/
theorem card_sdiff_insert_lt {g : Grid} {v : Finset Pos} {n : Pos}
    (hn : InRange g n) (hnv : n ∉ v) :
    (gridCells g \ insert n v).card + 1 = (gridCells g \ v).card := by
  have hmem : n ∈ gridCells g \ v := by
    rw [Finset.mem_sdiff, mem_gridCells]; exact ⟨hn, hnv⟩
  have : gridCells g \ insert n v = (gridCells g \ v).erase n := by
    ext z
    simp only [Finset.mem_sdiff, Finset.mem_insert, Finset.mem_erase]
    tauto
  rw [this, Finset.card_erase_of_mem hmem]
  have hpos : 0 < (gridCells g \ v).card := Finset.card_pos.mpr ⟨n, hmem⟩
  omega

/-! ## Unit steps and valid paths -/

theorem unitStep_iff {a b : Pos} :
    UnitStep a b ↔ ∃ d ∈ unitDirs, b = (a.1 + d.1, a.2 + d.2) := by
  obtain ⟨ax, ay⟩ := a
  obtain ⟨bx, by'⟩ := b
  constructor
  · rintro (⟨h1, h2 | h2⟩ | ⟨h1, h2 | h2⟩)
    · exact ⟨(0, 1), by decide, by simp only [Prod.mk.injEq]; omega⟩
    · exact ⟨(0, -1), by decide, by simp only [Prod.mk.injEq]; omega⟩
    · exact ⟨(1, 0), by decide, by simp only [Prod.mk.injEq]; omega⟩
    · exact ⟨(-1, 0), by decide, by simp only [Prod.mk.injEq]; omega⟩
  · rintro ⟨d, hd, hb⟩
    simp only [unitDirs, List.mem_cons, List.not_mem_nil, or_false] at hd
    rcases hd with rfl | rfl | rfl | rfl <;>
      simp only [Prod.mk.injEq] at hb <;>
      simp only [UnitStep] <;> omega

theorem unitStep_symm {a b : Pos} (h : UnitStep a b) : UnitStep b a := by
  obtain ⟨ax, ay⟩ := a
  obtain ⟨bx, by'⟩ := b
  simp only [UnitStep] at h ⊢
  omega

theorem validPath_singleton (g : Grid) (s : Pos) : ValidPath g s s [s] := by
  refine ⟨rfl, rfl, List.chain'_singleton s, ?_⟩
  intro z hz
  simp at hz

theorem validPath_length_pos {g : Grid} {s e : Pos} {p : List Pos}
    (h : ValidPath g s e p) : 1 ≤ p.length := by
  rcases p with _ | ⟨a, t⟩
  · simp [ValidPath] at h
  · simp

/-- The step-extension of a valid path by one passable unit move. -/
theorem validPath_snoc {g : Grid} {s c n : Pos} {p : List Pos}
    (h : ValidPath g s c p) (hstep : UnitStep c n) (hn : Passable g n) :
    ValidPath g s n (p ++ [n]) := by
  obtain ⟨h1, h2, h3, h4⟩ := h
  have hne : p ≠ [] := by rintro rfl; simp at h1
  refine ⟨?_, ?_, ?_, ?_⟩
  · rcases p with _ | ⟨a, t⟩
    · simp at h1
    · simpa using h1
  · simp [List.getLast?_concat]
  · rw [List.chain'_append]
    refine ⟨h3, List.chain'_singleton n, ?_⟩
    intro x hx y hy
    simp only [List.head?_cons, Option.mem_some_iff] at hy
    rw [h2] at hx
    simp only [Option.mem_some_iff] at hx
    subst hx; subst hy
    exact hstep
  · intro z hz
    rcases p with _ | ⟨a, t⟩
    · simp at h1
    · simp only [List.cons_append, List.tail_cons, List.mem_append,
        List.mem_singleton] at hz
      rcases hz with hz | hz
    

      · exact h4 z (by simpa using hz)
      · subst hz; exact hn

/-- Splitting off the last step of a valid path of length at least two. -/
theorem validPath_peel_last {g : Grid} {s e : Pos} {p : List Pos}
    (h : ValidPath g s e p) (hlen : 2 ≤ p.length) :
    ∃ q y, p = q ++ [e] ∧ q.getLast? = some y ∧ ValidPath g s y q ∧
      UnitStep y e ∧ Passable g e ∧ q.length + 1 = p.length := by
  obtain ⟨h1, h2, h3, h4⟩ := h
  have hne : p ≠ [] := by rintro rfl; simp at h1
  have hlp : 1 ≤ p.length := List.length_pos.mpr hne
  have hqlen : p.dropLast.length + 1 = p.length := by
    rw [List.length_dropLast]; omega
  have hqne : p.dropLast ≠ [] := List.ne_nil_of_length_pos (by omega)
  have hy : p.dropLast.getLast? = some (p.dropLast.getLast hqne) :=
    List.getLast?_eq_getLast _ hqne
  have hlast : p.getLast hne = e := by
    rw [List.getLast?_eq_getLast p hne] at h2
    exact Option.some.inj h2
  have hpq : p = p.dropLast ++ [e] := by
    conv_lhs => rw [← List.dropLast_concat_getLast hne]
    rw [hlast]
  have htail : p.tail = p.dropLast.tail ++ [e] := by
    conv_lhs => rw [hpq]
    exact List.tail_append_singleton_of_ne_nil hqne
  have hchain := List.chain'_append.mp (hpq ▸ h3)
  refine ⟨p.dropLast, p.dropLast.getLast hqne, hpq, hy,
    ⟨?_, hy, hchain.1, ?_⟩, ?_, ?_, hqlen⟩
  · rw [hpq, List.head?_append_of_ne_nil _ hqne] at h1
    exact h1
  · intro z hz
    exact h4 z (htail ▸ List.mem_append_left _ hz)
  · exact hchain.2.2 _ hy e rfl
  · exact h4 e (htail ▸ List.mem_append_right _ (by simp))

/-- A walk from `z` to `e` all of whose cells after `z` are unvisited. -/
def EscapeWalk (g : Grid) (e : Pos) (v : Finset Pos) (z : Pos) : Prop :=
  ∃ w : List Pos, w.head? = some z ∧ w.getLast? = some e ∧
    w.Chain' UnitStep ∧ (∀ x ∈ w.tail, Passable g x) ∧ ∀ x ∈ w.tail, x ∉ v

/-- From any valid walk out of the visited set one can extract a suffix that
starts at a visited cell and immediately leaves the visited set for good. -/
theorem escape_of_walk (g : Grid) (e : Pos) (v : Finset Pos) :
    ∀ (n : Nat) (w : List Pos) (z : Pos), w.length ≤ n → w.head? = some z →
      w.getLast? = some e → w.Chain' UnitStep →
      (∀ x ∈ w.tail, Passable g x) → z ∈ v →
      ∃ z2 ∈ v, EscapeWalk g e v z2 := by
  intro n
  induction n with
  | zero =>
    intro w z hlen hh _ _ _ _
    rcases w with _ | ⟨a, t⟩
    · simp at hh
    · simp at hlen
  | succ n ih =>
    intro w z hlen hh hl hc hp hz
    by_cases hall : ∀ x ∈ w.tail, x ∉ v
    · exact ⟨z, hz, w, hh, hl, hc, hp, hall⟩
    · push_neg at hall
      obtain ⟨x, hx, hxv⟩ := hall
      rcases w with _ | ⟨a, tw⟩
      · simp at hh
      have ha : a = z := by simpa using hh
      simp only [List.tail_cons] at hx
      obtain ⟨l1, l2, rfl⟩ := List.append_of_mem hx
      have hsplit : a :: (l1 ++ x :: l2) = (a :: l1) ++ (x :: l2) := by simp
      refine ih (x :: l2) x ?_ rfl ?_ ?_ ?_ hxv
      · have := hlen
        simp only [List.length_cons, List.length_append] at this ⊢
        omega
      · rw [hsplit, List.getLast?_append_cons] at hl
        exact hl
      · rw [hsplit] at hc
        exact (List.chain'_append.mp hc).2.1
      · intro y hy
        apply hp
        simp only [List.tail_cons, List.mem_append, List.mem_cons]
        right; right
        simpa using hy

/-- Walking through a neighbor-closed visited set never leaves it. -/
theorem mem_closed_of_validPath (g : Grid) (V : Finset Pos)
    (hcl : ∀ z ∈ V, ∀ d ∈ unitDirs,
      Passable g (z.1 + d.1, z.2 + d.2) → (z.1 + d.1, z.2 + d.2) ∈ V) :
    ∀ (p : List Pos) (s e : Pos), ValidPath g s e p → s ∈ V → e ∈ V := by
  intro p
  induction p with
  | nil =>
    intro s e hv _
    exact absurd hv.1 (by simp)
  | cons a t ih =>
    intro s e hv hs
    obtain ⟨h1, h2, h3, h4⟩ := hv
    have ha : a = s := by simpa using h1
    rcases t with _ | ⟨b, t2⟩
    · have : e = a := by simpa using h2.symm
      rw [this, ha]; exact hs
    · have hstep : UnitStep a b := (List.chain'_cons.mp h3).1
      have hbp : Passable g b := h4 b (by simp)
      have hbV : b ∈ V := by
        obtain ⟨d, hd, rfl⟩ := unitStep_iff.mp hstep
        exact hcl a (ha ▸ hs) d hd hbp
      refine ih b e ⟨rfl, ?_, (List.chain'_cons.mp h3).2, ?_⟩ hbV
      · rwa [List.getLast?_cons_cons] at h2
      · intro z hz
        simp only [List.tail_cons] at hz
        exact h4 z (by simp only [List.tail_cons, List.mem_cons]; exact Or.inr hz)

/-! ## BFS: properties of the direction loop -/

theorem bfsEnqueue_visited_mono (g : Grid) (c : Pos) (p : List Pos) :
    ∀ (ds : List Pos) (q : List (Pos × List Pos)) (v : Finset Pos),
      v ⊆ (bfsEnqueue g c p ds q v).2 := by
  intro ds
  induction ds with
  | nil => intro q v; simp [bfsEnqueue]
  | cons d rest ih =>
    intro q v
    simp only [bfsEnqueue]
    by_cases h : Passable g (c.1 + d.1, c.2 + d.2) ∧ (c.1 + d.1, c.2 + d.2) ∉ v
    · rw [if_pos h]
      exact (Finset.subset_insert _ _).trans (ih _ _)
    · rw [if_neg h]
      exact ih _ _

theorem bfsEnqueue_queue_shape (g : Grid) (c : Pos) (p : List Pos) :
    ∀ (ds : List Pos) (q : List (Pos × List Pos)) (v : Finset Pos),
      ∃ ents, (bfsEnqueue g c p ds q v).1 = q ++ ents ∧
        ∀ ent ∈ ents, ∃ d ∈ ds,
          ent = ((c.1 + d.1, c.2 + d.2), p ++ [(c.1 + d.1, c.2 + d.2)]) ∧
          Passable g (c.1 + d.1, c.2 + d.2) ∧ (c.1 + d.1, c.2 + d.2) ∉ v := by
  intro ds
  induction ds with
  | nil => intro q v; exact ⟨[], by simp [bfsEnqueue], by simp⟩
  | cons d rest ih =>
    intro q v
    simp only [bfsEnqueue]
    by_cases h : Passable g (c.1 + d.1, c.2 + d.2) ∧ (c.1 + d.1, c.2 + d.2) ∉ v
    · rw [if_pos h]
      obtain ⟨ents, hq, hent⟩ := ih (q ++ [((c.1 + d.1, c.2 + d.2),
        p ++ [(c.1 + d.1, c.2 + d.2)])]) (insert (c.1 + d.1, c.2 + d.2) v)
      refine ⟨((c.1 + d.1, c.2 + d.2), p ++ [(c.1 + d.1, c.2 + d.2)]) :: ents,
        by rw [hq]; simp, ?_⟩
      intro ent hx
      rcases List.mem_cons.mp hx with rfl | hx
      · exact ⟨d, List.mem_cons_self _ _, rfl, h.1, h.2⟩
      · obtain ⟨d2, hd2, he, hp2, hv2⟩ := hent ent hx
        exact ⟨d2, by simp [hd2], he, hp2, fun hmem =>
          hv2 (Finset.mem_insert_of_mem hmem)⟩
    · rw [if_neg h]
      obtain ⟨ents, hq, hent⟩ := ih q v
      refine ⟨ents, hq, ?_⟩
      intro ent hx
      obtain ⟨d2, hd2, he, hp2, hv2⟩ := hent ent hx
      exact ⟨d2, by simp [hd2], he, hp2, hv2⟩

theorem bfsEnqueue_covers (g : Grid) (c : Pos) (p : List Pos) :
    ∀ (ds : List Pos) (q : List (Pos × List Pos)) (v : Finset Pos),
      ∀ d ∈ ds, Passable g (c.1 + d.1, c.2 + d.2) →
        (c.1 + d.1, c.2 + d.2) ∈ (bfsEnqueue g c p ds q v).2 := by
  intro ds
  induction ds with
  | nil => intro q v d hd; simp at hd
  | cons d0 rest ih =>
    intro q v d hd hpass
    simp only [bfsEnqueue]
    by_cases h : Passable g (c.1 + d0.1, c.2 + d0.2) ∧ (c.1 + d0.1, c.2 + d0.2) ∉ v
    · rw [if_pos h]
      rcases List.mem_cons.mp hd with rfl | hd2
      · exact bfsEnqueue_visited_mono g c p rest _ _ (Finset.mem_insert_self _ _)
      · exact ih _ _ d hd2 hpass
    · rw [if_neg h]
      rcases List.mem_cons.mp hd with rfl | hd2
      · have hv : (c.1 + d.1, c.2 + d.2) ∈ v := by
          by_contra hnv
          exact h ⟨hpass, hnv⟩
        exact bfsEnqueue_visited_mono g c p rest _ _ hv
      · exact ih _ _ d hd2 hpass

theorem bfsEnqueue_visited_char (g : Grid) (c : Pos) (p : List Pos) :
    ∀ (ds : List Pos) (q : List (Pos × List Pos)) (v : Finset Pos),
      ∀ z ∈ (bfsEnqueue g c p ds q v).2, z ∈ v ∨
        ∃ ent ∈ (bfsEnqueue g c p ds q v).1, ent.1 = z := by
  intro ds
  induction ds with
  | nil => intro q v z hz; exact Or.inl (by simpa [bfsEnqueue] using hz)
  | cons d rest ih =>
    intro q v z hz
    simp only [bfsEnqueue] at hz ⊢
    by_cases h : Passable g (c.1 + d.1, c.2 + d.2) ∧ (c.1 + d.1, c.2 + d.2) ∉ v
    · rw [if_pos h] at hz ⊢
      rcases ih _ _ z hz with hin | hq
      · rcases Finset.mem_insert.mp hin with rfl | hv
        · right
          obtain ⟨ents, hsh, _⟩ := bfsEnqueue_queue_shape g c p rest
            (q ++ [((c.1 + d.1, c.2 + d.2), p ++ [(c.1 + d.1, c.2 + d.2)])])
            (insert (c.1 + d.1, c.2 + d.2) v)
          refine ⟨((c.1 + d.1, c.2 + d.2), p ++ [(c.1 + d.1, c.2 + d.2)]), ?_, rfl⟩
          rw [hsh]
          simp
        · exact Or.inl hv
      · exact Or.inr hq
    · rw [if_neg h] at hz ⊢
      exact ih _ _ z hz

theorem bfsEnqueue_measure (g : Grid) (c : Pos) (p : List Pos) :
    ∀ (ds : List Pos) (q : List (Pos × List Pos)) (v : Finset Pos),
      2 * (gridCells g \ (bfsEnqueue g c p ds q v).2).card +
          (bfsEnqueue g c p ds q v).1.length ≤
        2 * (gridCells g \ v).card + q.length := by
  intro ds
  induction ds with
  | nil => intro q v; simp [bfsEnqueue]
  | cons d rest ih =>
    intro q v
    simp only [bfsEnqueue]
    by_cases h : Passable g (c.1 + d.1, c.2 + d.2) ∧ (c.1 + d.1, c.2 + d.2) ∉ v
    · rw [if_pos h]
      have hstep := card_sdiff_insert_lt (g := g) h.1.1 h.2
      have := ih (q ++ [((c.1 + d.1, c.2 + d.2), p ++ [(c.1 + d.1, c.2 + d.2)])])
        (insert (c.1 + d.1, c.2 + d.2) v)
      simp only [List.length_append, List.length_singleton] at this
      omega
    · rw [if_neg h]
      exact ih _ _

/-- The path lengths of the queue entries. -/
def queueLens (q : List (Pos × List Pos)) : List Nat := q.map fun ent => ent.2.length

/-- The loop invariant of `solve_bfs`: the visited set contains the start and
every queued cell; queue entries carry duplicate-free shortest valid paths
from the start through visited cells; every visited cell is either still
queued or fully expanded (and not the end, which returns when popped); and
the queued path lengths are nondecreasing and spread over at most two
consecutive values. -/
structure BFSInv (g : Grid) (s e : Pos) (q : List (Pos × List Pos))
    (v : Finset Pos) : Prop where
  startMem : s ∈ v
  cellMem : ∀ ent ∈ q, ent.1 ∈ v
  wf : ∀ ent ∈ q, ent.2.head? = some s ∧ ent.2.getLast? = some ent.1 ∧
    ent.2.Chain' UnitStep ∧ (∀ z ∈ ent.2.tail, Passable g z) ∧ ent.2.Nodup ∧
    ∀ z ∈ ent.2, z ∈ v
  shortest : ∀ ent ∈ q, ∀ p2, ValidPath g s ent.1 p2 → ent.2.length ≤ p2.length
  closure : ∀ z ∈ v, (∃ ent ∈ q, ent.1 = z) ∨
    (z ≠ e ∧ ∀ d ∈ unitDirs, Passable g (z.1 + d.1, z.2 + d.2) →
      (z.1 + d.1, z.2 + d.2) ∈ v)
  endQueued : e ∈ v → ∃ ent ∈ q, ent.1 = e
  lensSorted : (queueLens q).Sorted (· ≤ ·)
  lensBound : ∀ ent ∈ q, ∀ ent0 ∈ q.head?, ent.2.length ≤ ent0.2.length + 1

/-- In a sorted queue the front entry has the least path length. -/
theorem bfs_head_min {g : Grid} {s e c : Pos} {p : List Pos}
    {rest : List (Pos × List Pos)} {v : Finset Pos}
    (hInv : BFSInv g s e ((c, p) :: rest) v) :
    ∀ ent ∈ rest, p.length ≤ ent.2.length := by
  intro ent hent
  have hs := hInv.lensSorted
  simp only [queueLens, List.map_cons, List.sorted_cons] at hs
  exact hs.1 ent.2.length (List.mem_map_of_mem _ hent)

/-- Every cell reachable by a valid walk no longer than the front path is
already visited. -/
theorem bfs_short_visited {g : Grid} {s e c : Pos} {p : List Pos}
    {rest : List (Pos × List Pos)} {v : Finset Pos}
    (hInv : BFSInv g s e ((c, p) :: rest) v) :
    ∀ (n : Nat) (p2 : List Pos) (z : Pos), p2.length ≤ n →
      ValidPath g s z p2 → p2.length ≤ p.length → z ∈ v := by
  intro n
  induction n with
  | zero =>
    intro p2 z hn hv _
    have := validPath_length_pos hv
    omega
  | succ n ih =>
    intro p2 z hn hv hle
    have hpos := validPath_length_pos hv
    by_cases h1 : p2.length = 1
    · rcases p2 with _ | ⟨a, t⟩
      · simp at h1
      rcases t with _ | ⟨b, t2⟩
      · have has : a = s := by simpa using hv.1
        have haz : a = z := by
          have := hv.2.1
          simpa using this
        rw [← haz, has] at *
        exact hInv.startMem
      · simp at h1
    · have h2 : 2 ≤ p2.length := by omega
      obtain ⟨q2, y, hpq, hy, hvq, hstep, hpass, hqlen⟩ := validPath_peel_last hv h2
      have hyv : y ∈ v := ih q2 y (by omega) hvq (by omega)
      have hppos : p ≠ [] := by
        intro h
        have := (hInv.wf (c, p) (List.mem_cons_self _ _)).1
        rw [h] at this
        simp at this
      have hynq : ¬ ∃ ent ∈ (c, p) :: rest, ent.1 = y := by
        rintro ⟨ent, hment, henty⟩
        have hshort := hInv.shortest ent hment q2 (henty ▸ hvq)
        have hlow : p.length ≤ ent.2.length := by
          rcases List.mem_cons.mp hment with rfl | hr
          · exact le_refl _
          · exact bfs_head_min hInv ent hr
        have : 1 ≤ p.length := List.length_pos.mpr hppos
        omega
      rcases hInv.closure y hyv with hq | ⟨_, hnb⟩
      · exact absurd hq hynq
      · obtain ⟨d, hd, rfl⟩ := unitStep_iff.mp hstep
        exact hnb d hd hpass

/-- Escape-walk hypotheses survive growing the visited set. -/
theorem escape_mono {g : Grid} {e : Pos} {v v2 : Finset Pos} (hsub : v ⊆ v2)
    (H : ∃ z ∈ v, EscapeWalk g e v z) : ∃ z ∈ v2, EscapeWalk g e v2 z := by
  obtain ⟨z, hz, w, hh, hl, hc, hp, _⟩ := H
  exact escape_of_walk g e v2 w.length w z le_rfl hh hl hc hp (hsub hz)

/-- With an empty queue an escape walk toward the end is contradictory. -/
theorem bfs_empty_no_escape {g : Grid} {s e : Pos} {v : Finset Pos}
    (hInv : BFSInv g s e [] v) (H : ∃ z ∈ v, EscapeWalk g e v z) : False := by
  obtain ⟨z, hz, w, hh, hl, hc, hp, hav⟩ := H
  rcases hInv.closure z hz with ⟨ent, hent, _⟩ | ⟨hzne, hnb⟩
  · simp at hent
  · rcases w with _ | ⟨a, tw⟩
    · simp at hh
    have ha : a = z := by simpa using hh
    rcases tw with _ | ⟨b, tw2⟩
    · have hae : a = e := by simpa using hl
      exact hzne (ha ▸ hae ▸ rfl)
    · have hstep : UnitStep z b := ha ▸ (List.chain'_cons.mp hc).1
      have hbp : Passable g b := hp b (by simp)
      have hbnv : b ∉ v := hav b (by simp)
      obtain ⟨d, hd, rfl⟩ := unitStep_iff.mp hstep
      exact hbnv (hnb d hd hbp)

/-- A constant list of naturals is sorted. -/
theorem sorted_le_of_const {l : List Nat} {k : Nat} (h : ∀ x ∈ l, x = k) :
    l.Sorted (· ≤ ·) := by
  induction l with
  | nil => simp
  | cons a t ih =>
    rw [List.sorted_cons]
    refine ⟨?_, ih fun x hx => h x (by simp [hx])⟩
    intro b hb
    rw [h a (by simp), h b (by simp [hb])]

/-- One BFS expansion step preserves the invariant. -/
theorem bfsInv_step {g : Grid} {s e c : Pos} {p : List Pos}
    {rest : List (Pos × List Pos)} {v : Finset Pos}
    (hInv : BFSInv g s e ((c, p) :: rest) v) (hne : c ≠ e) :
    BFSInv g s e (bfsEnqueue g c p unitDirs rest v).1
      (bfsEnqueue g c p unitDirs rest v).2 := by
  obtain ⟨ents, hshape, hent⟩ := bfsEnqueue_queue_shape g c p unitDirs rest v
  have hsub := bfsEnqueue_visited_mono g c p unitDirs rest v
  have hcov := bfsEnqueue_covers g c p unitDirs rest v
  have hchar := bfsEnqueue_visited_char g c p unitDirs rest v
  have hwfc := hInv.wf (c, p) (List.mem_cons_self _ _)
  have hpne : p ≠ [] := by
    intro h
    rw [h] at hwfc
    simp at hwfc
  have hppos : 1 ≤ p.length := List.length_pos.mpr hpne
  have hvp : ValidPath g s c p := ⟨hwfc.1, hwfc.2.1, hwfc.2.2.1, hwfc.2.2.2.1⟩
  have hentfact : ∀ ent ∈ ents, ∃ d ∈ unitDirs,
      ent = ((c.1 + d.1, c.2 + d.2), p ++ [(c.1 + d.1, c.2 + d.2)]) ∧
      Passable g (c.1 + d.1, c.2 + d.2) ∧ (c.1 + d.1, c.2 + d.2) ∉ v := hent
  have hentlen : ∀ ent ∈ ents, ent.2.length = p.length + 1 := by
    intro ent hx
    obtain ⟨d, _, rfl, _, _⟩ := hentfact ent hx
    simp
  have hentvp : ∀ ent ∈ ents, ValidPath g s ent.1 ent.2 := by
    intro ent hx
    obtain ⟨d, hd, rfl, hpass, _⟩ := hentfact ent hx
    exact validPath_snoc hvp (unitStep_iff.mpr ⟨d, hd, rfl⟩) hpass
  constructor
  · exact hsub hInv.startMem
  · intro ent hx
    rw [hshape] at hx
    rcases List.mem_append.mp hx with hr | hx
    · exact hsub (hInv.cellMem ent (by simp [hr]))
    · obtain ⟨d, hd, rfl, hpass, _⟩ := hentfact ent hx
      exact hcov d hd hpass
  · intro ent hx
    rw [hshape] at hx
    rcases List.mem_append.mp hx with hr | hx
    · have hold := hInv.wf ent (by simp [hr])
      exact ⟨hold.1, hold.2.1, hold.2.2.1, hold.2.2.2.1, hold.2.2.2.2.1,
        fun z hz => hsub (hold.2.2.2.2.2 z hz)⟩
    · obtain ⟨d, hd, he2, hpass, hnv⟩ := hentfact ent hx
      have hv2 := hentvp ent hx
      obtain ⟨hh, hl, hc2, ht⟩ := hv2
      refine ⟨hh, hl, hc2, ht, ?_, ?_⟩
      · rw [he2]
        simp only [List.nodup_append, List.nodup_singleton]
        refine ⟨hwfc.2.2.2.2.1, by simp, ?_⟩
        intro z hz
        simp only [List.mem_singleton]
        intro hzeq
        exact hnv (hzeq ▸ hwfc.2.2.2.2.2 z hz)
      · rw [he2]
        intro z hz
        rcases List.mem_append.mp hz with hz | hz
        · exact hsub (hwfc.2.2.2.2.2 z hz)
        · rw [List.mem_singleton.mp hz]
          exact hcov d hd hpass
  · intro ent hx p2 hvp2
    rw [hshape] at hx
    rcases List.mem_append.mp hx with hr | hx
    · exact hInv.shortest ent (by simp [hr]) p2 hvp2
    · obtain ⟨d, hd, he2, hpass, hnv⟩ := hentfact ent hx
      subst he2
      simp only [List.length_append, List.length_singleton]
      by_contra hlt
      push_neg at hlt
      have hshort : p2.length ≤ p.length := by omega
      exact hnv (bfs_short_visited hInv p2.length p2 _ le_rfl hvp2 hshort)
  · intro z hz
    rcases hchar z hz with hzv | hq
    · rcases hInv.closure z hzv with ⟨ent, hment, hcell⟩ | ⟨hzne, hnb⟩
      · rcases List.mem_cons.mp hment with rfl | hr
        · have hcz : c = z := hcell
          subst hcz
          exact Or.inr ⟨hne, fun d hd hpass => hcov d hd hpass⟩
        · left
          exact ⟨ent, by rw [hshape]; exact List.mem_append_left _ hr, hcell⟩
      · exact Or.inr ⟨hzne, fun d hd hp2 => hsub (hnb d hd hp2)⟩
    · exact Or.inl hq
  · intro hev
    rcases hchar e hev with hzv | hq
    · obtain ⟨ent, hment, hcell⟩ := hInv.endQueued hzv
      rcases List.mem_cons.mp hment with rfl | hr
      · exact absurd hcell hne
      · exact ⟨ent, by rw [hshape]; exact List.mem_append_left _ hr, hcell⟩
    · exact hq
  · rw [hshape]
    simp only [queueLens, List.map_append]
    refine List.pairwise_append.mpr ⟨?_, ?_, ?_⟩
    · have hs := hInv.lensSorted
      simp only [queueLens, List.map_cons, List.sorted_cons] at hs
      exact hs.2
    · apply sorted_le_of_const (k := p.length + 1)
      intro x hx
      obtain ⟨ent, hment, rfl⟩ := List.mem_map.mp hx
      exact hentlen ent hment
    · intro a ha b hb
      obtain ⟨ent, hment, rfl⟩ := List.mem_map.mp ha
      obtain ⟨ent2, hment2, rfl⟩ := List.mem_map.mp hb
      rw [hentlen ent2 hment2]
      have := hInv.lensBound ent (by simp [hment]) (c, p) rfl
      exact this
  · intro ent hx ent0 h0
    rw [hshape] at hx h0
    rcases hrest : rest with _ | ⟨r0, rest2⟩
    · subst hrest
      simp only [List.nil_append] at hx h0
      have h0e : ents.head? = some ent0 := h0
      have hent0 : ent0 ∈ ents := by
        rcases ents with _ | ⟨a, t⟩
        · simp at h0e
        · have ha0 : a = ent0 := by simpa [Option.mem_def] using h0e
          simp [← ha0]
      rw [hentlen ent hx, hentlen ent0 hent0]
      omega
    · subst hrest
      have h0r : ent0 = r0 := by
        rw [List.head?_append_of_ne_nil _ (by simp)] at h0
        exact (by simpa using h0 : r0 = ent0).symm
      subst h0r
      have hpr : p.length ≤ ent0.2.length :=
        bfs_head_min hInv ent0 (List.mem_cons_self _ _)
      rcases List.mem_append.mp hx with hr | hx
      · have hb := hInv.lensBound ent (by simp [hr]) (c, p) rfl
        have hcp : ((c, p) : Pos × List Pos).2.length = p.length := rfl
        omega
      · rw [hentlen ent hx]
        omega

/-- Termination measure of the BFS loop. -/
def bfsMeasure (g : Grid) (q : List (Pos × List Pos)) (v : Finset Pos) : Nat :=
  2 * (gridCells g \ v).card + q.length

/-- Master lemma for the BFS loop: with the invariant and enough fuel the
loop terminates returning the grid unchanged; a nonempty result is a
duplicate-free shortest valid path from `s` to `e`; and an escape walk in
hand guarantees a nonempty result. -/
theorem bfsLoop_spec (g : Grid) (s e : Pos) :
    ∀ (fuel : Nat) (q : List (Pos × List Pos)) (v : Finset Pos),
      BFSInv g s e q v → bfsMeasure g q v < fuel →
      ∃ p, bfsLoop e fuel g q v = some (p, g) ∧
        (p ≠ [] → ValidPath g s e p ∧ p.Nodup ∧
          ∀ p2, ValidPath g s e p2 → p.length ≤ p2.length) ∧
        ((∃ z ∈ v, EscapeWalk g e v z) → p ≠ []) := by
  intro fuel
  induction fuel with
  | zero =>
    intro q v _ hm
    omega
  | succ fuel ih =>
    intro q v hInv hm
    rcases q with _ | ⟨⟨c, p⟩, rest⟩
    · refine ⟨[], by simp [bfsLoop], ?_, ?_⟩
      · intro h
        exact absurd rfl h
      · intro H
        exact (bfs_empty_no_escape hInv H).elim
    · have hwfc := hInv.wf (c, p) (List.mem_cons_self _ _)
      have hpne : p ≠ [] := by
        intro h
        rw [h] at hwfc
        simp at hwfc
      by_cases hce : c = e
      · refine ⟨p, ?_, ?_, fun _ => hpne⟩
        · simp [bfsLoop, hce]
        · intro _
          refine ⟨⟨hwfc.1, by rw [← hce]; exact hwfc.2.1, hwfc.2.2.1,
            hwfc.2.2.2.1⟩, hwfc.2.2.2.2.1, ?_⟩
          intro p2 hvp2
          exact hInv.shortest (c, p) (List.mem_cons_self _ _) p2
            (show ValidPath g s c p2 by rw [hce]; exact hvp2)
      · have hInv2 := bfsInv_step hInv hce
        have hmeas := bfsEnqueue_measure g c p unitDirs rest v
        have hm2 : bfsMeasure g (bfsEnqueue g c p unitDirs rest v).1
            (bfsEnqueue g c p unitDirs rest v).2 < fuel := by
          unfold bfsMeasure at hm ⊢
          simp only [List.length_cons] at hm
          omega
        obtain ⟨p2, hrun, hsound, hcomp⟩ := ih _ _ hInv2 hm2
        refine ⟨p2, ?_, hsound, ?_⟩
        · simp only [bfsLoop, if_neg hce]
          exact hrun
        · intro H
          exact hcomp (escape_mono (bfsEnqueue_visited_mono g c p unitDirs rest v) H)

/-- The initial BFS state satisfies the invariant. -/
theorem bfsInv_init (g : Grid) (s e : Pos) : BFSInv g s e [(s, [s])] {s} := by
  constructor
  · exact Finset.mem_singleton_self s
  · intro ent hx
    rcases List.mem_singleton.mp hx with rfl
    exact Finset.mem_singleton_self s
  · intro ent hx
    rcases List.mem_singleton.mp hx with rfl
    exact ⟨rfl, rfl, List.chain'_singleton s, by simp, by simp, by simp⟩
  · intro ent hx p2 hvp2
    rcases List.mem_singleton.mp hx with rfl
    simpa using validPath_length_pos hvp2
  · intro z hz
    rcases Finset.mem_singleton.mp hz with rfl
    exact Or.inl ⟨(z, [z]), by simp, rfl⟩
  · intro hev
    rcases Finset.mem_singleton.mp hev with rfl
    exact ⟨(e, [e]), by simp, rfl⟩
  · simp [queueLens]
  · intro ent hx ent0 h0
    rcases List.mem_singleton.mp hx with rfl
    have : ent0 = (s, [s]) := by simpa [Option.mem_def] using h0.symm
    rw [this]
    simp

/-- The BFS loop never writes the grid it threads through its state. -/
theorem bfsLoop_grid (e : Pos) :
    ∀ (fuel : Nat) (g : Grid) (q : List (Pos × List Pos)) (v : Finset Pos)
      (p : List Pos) (gOut : Grid),
      bfsLoop e fuel g q v = some (p, gOut) → gOut = g := by
  intro fuel
  induction fuel with
  | zero => intro g q v p gOut h; simp [bfsLoop] at h
  | succ fuel ih =>
    intro g q v p gOut h
    rcases q with _ | ⟨⟨c, p0⟩, rest⟩
    · simp only [bfsLoop, Option.some.injEq, Prod.mk.injEq] at h
      exact h.2.symm
    · by_cases hce : c = e
      · simp only [bfsLoop, if_pos hce, Option.some.injEq, Prod.mk.injEq] at h
        exact h.2.symm
      · simp only [bfsLoop, if_neg hce] at h
        exact ih g _ _ p gOut h

/-- The starting BFS measure is below the fuel bound. -/
theorem bfsMeasure_init_lt (g : Grid) (s : Pos) :
    bfsMeasure g [(s, [s])] {s} < solveFuel g := by
  unfold bfsMeasure solveFuel
  have hle : (gridCells g \ {s}).card ≤ (gridCells g).card :=
    Finset.card_le_card (Finset.sdiff_subset)
  have := card_gridCells g
  simp only [List.length_singleton]
  omega

/-- Combined top-level specification of `solve_bfs`: the grid comes back
unchanged, a nonempty result is a duplicate-free shortest valid path from
the discovered start to the discovered end, and a result is nonempty
whenever any valid path exists. -/
theorem solveBFS_main (g : Grid) :
    solveBFSFull g = (solveBFS g, g) ∧
    (solveBFS g ≠ [] → ValidPath g (findStart g) (findEnd g) (solveBFS g) ∧
      (solveBFS g).Nodup ∧
      ∀ p2, ValidPath g (findStart g) (findEnd g) p2 →
        (solveBFS g).length ≤ p2.length) ∧
    ((∃ p0, ValidPath g (findStart g) (findEnd g) p0) → solveBFS g ≠ []) := by
  obtain ⟨p, hrun, hsound, hcomp⟩ := bfsLoop_spec g (findStart g) (findEnd g)
    (solveFuel g) [(findStart g, [findStart g])] {findStart g}
    (bfsInv_init g (findStart g) (findEnd g)) (bfsMeasure_init_lt g (findStart g))
  have hfull : solveBFSFull g = (p, g) := by
    show (bfsLoop (findEnd g) (solveFuel g) g [(findStart g, [findStart g])]
      {findStart g}).getD ([], g) = (p, g)
    rw [hrun]
    rfl
  have hbfs : solveBFS g = p := by
    unfold solveBFS
    rw [hfull]
  refine ⟨by rw [hfull, hbfs], by rw [hbfs]; exact hsound, ?_⟩
  intro ⟨p0, hvp0⟩
  rw [hbfs]
  apply hcomp
  exact escape_of_walk g (findEnd g) {findStart g} p0.length p0 (findStart g)
    le_rfl hvp0.1 hvp0.2.1 hvp0.2.2.1 hvp0.2.2.2 (Finset.mem_singleton_self _)

theorem solveBFSFull_snd (g : Grid) : (solveBFSFull g).2 = g := by
  show ((bfsLoop (findEnd g) (solveFuel g) g [(findStart g, [findStart g])]
    {findStart g}).getD ([], g)).2 = g
  rcases hrun : bfsLoop (findEnd g) (solveFuel g) g
      [(findStart g, [findStart g])] {findStart g} with _ | ⟨p, g2⟩
  · rfl
  · simpa [Option.getD] using bfsLoop_grid (findEnd g) _ g _ _ p g2 hrun

/-! ## DFS: grid threading, monotonicity and fuel -/

theorem dfsDirs_grid (e : Pos) :
    ∀ (fuel : Nat) (g : Grid) (c : Pos) (ds : List Pos) (v : Finset Pos)
      (p : List Pos) (b : Bool) (p2 : List Pos) (v2 : Finset Pos) (g2 : Grid),
      dfsDirs e fuel g c ds v p = some (b, p2, v2, g2) → g2 = g := by
  intro fuel
  induction fuel with
  | zero => intro g c ds v p b p2 v2 g2 h; simp [dfsDirs] at h
  | succ fuel ih =>
    intro g c ds v p b p2 v2 g2 h
    rcases ds with _ | ⟨d, rest⟩
    · simp only [dfsDirs, Option.some.injEq, Prod.mk.injEq] at h
      exact h.2.2.2.symm
    · simp only [dfsDirs] at h
      by_cases hg : Passable g (c.1 + d.1, c.2 + d.2) ∧ (c.1 + d.1, c.2 + d.2) ∉ v
      · rw [if_pos hg] at h
        by_cases hne : (c.1 + d.1, c.2 + d.2) = e
        · rw [if_pos hne] at h
          simp only [Option.some.injEq, Prod.mk.injEq] at h
          exact h.2.2.2.symm
        · rw [if_neg hne] at h
          rcases hrec : dfsDirs e fuel g (c.1 + d.1, c.2 + d.2) unitDirs
              (insert (c.1 + d.1, c.2 + d.2) v) (p ++ [(c.1 + d.1, c.2 + d.2)]) with
            _ | ⟨b3, p3, v3, g3⟩
          · rw [hrec] at h
            simp at h
          · rw [hrec] at h
            have hg3 : g3 = g := ih g _ unitDirs _ _ b3 p3 v3 g3 hrec
            rcases b3 with _ | _
            · simp only at h
              have := ih g3 c rest v3 p3.dropLast b p2 v2 g2 h
              rw [this, hg3]
            · simp only [Option.some.injEq, Prod.mk.injEq] at h
              rw [h.2.2.2.symm, hg3]
      · rw [if_neg hg] at h
        exact ih g c rest v p b p2 v2 g2 h

theorem dfsDirs_mono (e : Pos) :
    ∀ (fuel : Nat) (g : Grid) (c : Pos) (ds : List Pos) (v : Finset Pos)
      (p : List Pos) (b : Bool) (p2 : List Pos) (v2 : Finset Pos) (g2 : Grid),
      dfsDirs e fuel g c ds v p = some (b, p2, v2, g2) → v ⊆ v2 := by
  intro fuel
  induction fuel with
  | zero => intro g c ds v p b p2 v2 g2 h; simp [dfsDirs] at h
  | succ fuel ih =>
    intro g c ds v p b p2 v2 g2 h
    rcases ds with _ | ⟨d, rest⟩
    · simp only [dfsDirs, Option.some.injEq, Prod.mk.injEq] at h
      rw [← h.2.2.1]
    · simp only [dfsDirs] at h
      by_cases hg : Passable g (c.1 + d.1, c.2 + d.2) ∧ (c.1 + d.1, c.2 + d.2) ∉ v
      · rw [if_pos hg] at h
        by_cases hne : (c.1 + d.1, c.2 + d.2) = e
        · rw [if_pos hne] at h
          simp only [Option.some.injEq, Prod.mk.injEq] at h
          rw [← h.2.2.1]
        · rw [if_neg hne] at h
          rcases hrec : dfsDirs e fuel g (c.1 + d.1, c.2 + d.2) unitDirs
              (insert (c.1 + d.1, c.2 + d.2) v) (p ++ [(c.1 + d.1, c.2 + d.2)]) with
            _ | ⟨b3, p3, v3, g3⟩
          · rw [hrec] at h
            simp at h
          · rw [hrec] at h
            have hm3 : insert (c.1 + d.1, c.2 + d.2) v ⊆ v3 :=
              ih g _ unitDirs _ _ b3 p3 v3 g3 hrec
            have hvv3 : v ⊆ v3 := (Finset.subset_insert _ _).trans hm3
            rcases b3 with _ | _
            · simp only at h
              exact hvv3.trans (ih g3 c rest v3 p3.dropLast b p2 v2 g2 h)
            · simp only [Option.some.injEq, Prod.mk.injEq] at h
              rw [← h.2.2.1]
              exact hvv3
      · rw [if_neg hg] at h
        exact ih g c rest v p b p2 v2 g2 h

theorem dfsDirs_fuel (e : Pos) :
    ∀ (fuel : Nat) (g : Grid) (c : Pos) (ds : List Pos) (v : Finset Pos)
      (p : List Pos),
      5 * (gridCells g \ v).card + ds.length < fuel →
      dfsDirs e fuel g c ds v p ≠ none := by
  intro fuel
  induction fuel with
  | zero => intro g c ds v p hm; omega
  | succ fuel ih =>
    intro g c ds v p hm
    rcases ds with _ | ⟨d, rest⟩
    · simp [dfsDirs]
    · simp only [dfsDirs]
      by_cases hg : Passable g (c.1 + d.1, c.2 + d.2) ∧ (c.1 + d.1, c.2 + d.2) ∉ v
      · rw [if_pos hg]
        by_cases hne : (c.1 + d.1, c.2 + d.2) = e
        · rw [if_pos hne]
          simp
        · rw [if_neg hne]
          have hcard := card_sdiff_insert_lt (g := g) hg.1.1 hg.2
          have hrec_ne : dfsDirs e fuel g (c.1 + d.1, c.2 + d.2) unitDirs
              (insert (c.1 + d.1, c.2 + d.2) v)
              (p ++ [(c.1 + d.1, c.2 + d.2)]) ≠ none := by
            apply ih
            simp only [List.length_cons] at hm
            have : unitDirs.length = 4 := rfl
            omega
          rcases hrec : dfsDirs e fuel g (c.1 + d.1, c.2 + d.2) unitDirs
              (insert (c.1 + d.1, c.2 + d.2) v) (p ++ [(c.1 + d.1, c.2 + d.2)]) with
            _ | ⟨b3, p3, v3, g3⟩
          · exact absurd hrec hrec_ne
          · rcases b3 with _ | _
            · simp only []
              apply ih
              have hm3 : insert (c.1 + d.1, c.2 + d.2) v ⊆ v3 :=
                dfsDirs_mono e fuel g _ unitDirs _ _ false p3 v3 g3 hrec
              have hc3 : (gridCells g \ v3).card ≤
                  (gridCells g \ insert (c.1 + d.1, c.2 + d.2) v).card :=
                Finset.card_le_card (Finset.sdiff_subset_sdiff (le_refl _) hm3)
              have hg3 : g3 = g := dfsDirs_grid e fuel g _ unitDirs _ _ false p3 v3 g3 hrec
              rw [hg3]
              simp only [List.length_cons] at hm
              omega
            · simp
      · rw [if_neg hg]
        apply ih
        simp only [List.length_cons] at hm
        omega

/-- Failure analysis of the DFS direction loop: the path is restored to its
input value, the end was never inserted, every traversable neighbor over the
remaining directions is visited on return, and every cell inserted during
the call is fully expanded on return. -/
theorem dfsDirs_false (e : Pos) :
    ∀ (fuel : Nat) (g : Grid) (c : Pos) (ds : List Pos) (v : Finset Pos)
      (p : List Pos) (p2 : List Pos) (v2 : Finset Pos) (g2 : Grid),
      dfsDirs e fuel g c ds v p = some (false, p2, v2, g2) → e ∉ v →
      p2 = p ∧ e ∉ v2 ∧
      (∀ d ∈ ds, Passable g (c.1 + d.1, c.2 + d.2) →
        (c.1 + d.1, c.2 + d.2) ∈ v2) ∧
      (∀ z ∈ v2, z ∉ v → ∀ d ∈ unitDirs,
        Passable g (z.1 + d.1, z.2 + d.2) → (z.1 + d.1, z.2 + d.2) ∈ v2) := by
  intro fuel
  induction fuel with
  | zero => intro g c ds v p p2 v2 g2 h _; simp [dfsDirs] at h
  | succ fuel ih =>
    intro g c ds v p p2 v2 g2 h hev
    rcases ds with _ | ⟨d, rest⟩
    · simp only [dfsDirs, Option.some.injEq, Prod.mk.injEq, true_and] at h
      obtain ⟨hp, hv, _⟩ := h
      refine ⟨hp.symm, hv ▸ hev, by simp, ?_⟩
      intro z hz hnz
      exact absurd (hv ▸ hz) hnz
    · simp only [dfsDirs] at h
      by_cases hg : Passable g (c.1 + d.1, c.2 + d.2) ∧ (c.1 + d.1, c.2 + d.2) ∉ v
      · rw [if_pos hg] at h
        by_cases hne : (c.1 + d.1, c.2 + d.2) = e
        · rw [if_pos hne] at h
          simp at h
        · rw [if_neg hne] at h
          rcases hrec : dfsDirs e fuel g (c.1 + d.1, c.2 + d.2) unitDirs
              (insert (c.1 + d.1, c.2 + d.2) v) (p ++ [(c.1 + d.1, c.2 + d.2)]) with
            _ | ⟨b3, p3, v3, g3⟩
          · rw [hrec] at h
            simp at h
          · rw [hrec] at h
            rcases b3 with _ | _
            · simp only [] at h
              have hg3 : g3 = g :=
                dfsDirs_grid e fuel g _ unitDirs _ _ false p3 v3 g3 hrec
              have hev3 : e ∉ insert (c.1 + d.1, c.2 + d.2) v := by
                simp only [Finset.mem_insert]
                rintro (rfl | hev2)
                · exact hne rfl
                · exact hev hev2
              obtain ⟨hp3, hev3r, hcov3, hexp3⟩ :=
                ih g _ unitDirs _ _ p3 v3 g3 hrec hev3
              have hmono3 : insert (c.1 + d.1, c.2 + d.2) v ⊆ v3 :=
                dfsDirs_mono e fuel g _ unitDirs _ _ false p3 v3 g3 hrec
              rw [hg3] at h
              have hdrop : p3.dropLast = p := by
                rw [hp3, List.dropLast_concat]
              rw [hdrop] at h
              obtain ⟨hp2, hev2r, hcov2, hexp2⟩ :=
                ih g c rest v3 p p2 v2 g2 h hev3r
              have hmono2 : v3 ⊆ v2 :=
                dfsDirs_mono e fuel g c rest v3 p false p2 v2 g2 h
              refine ⟨hp2, hev2r, ?_, ?_⟩
              · intro d2 hd2 hpass
                rcases List.mem_cons.mp hd2 with rfl | hd2r
                · exact hmono2 (hmono3 (Finset.mem_insert_self _ _))
                · exact hcov2 d2 hd2r hpass
              · intro z hz hnz d2 hd2 hpass
                by_cases hz3 : z ∈ v3
                · by_cases hzn : z = (c.1 + d.1, c.2 + d.2)
                  · subst hzn
                    exact hmono2 (hcov3 d2 hd2 hpass)
                  · have hznv3 : z ∉ insert (c.1 + d.1, c.2 + d.2) v := by
                      simp only [Finset.mem_insert]
                      rintro (rfl | hzv)
                      · exact hzn rfl
                      · exact hnz hzv
                    exact hmono2 (hexp3 z hz3 hznv3 d2 hd2 hpass)
                · exact hexp2 z hz hz3 d2 hd2 hpass
            · simp at h
      · rw [if_neg hg] at h
        obtain ⟨hp2, hev2, hcov, hexp⟩ := ih g c rest v p p2 v2 g2 h hev
        refine ⟨hp2, hev2, ?_, hexp⟩
        intro d2 hd2 hpass
        rcases List.mem_cons.mp hd2 with rfl | hd2r
        · have hin : (c.1 + d2.1, c.2 + d2.2) ∈ v := by
            by_contra hniv
            exact hg ⟨hpass, hniv⟩
          exact dfsDirs_mono e fuel g c rest v p false p2 v2 g2 h hin
        · exact hcov d2 hd2r hpass

/-- Success analysis of the DFS direction loop: the returned path extends the
input path to a duplicate-free orthogonal walk ending at `e` whose cells
after the head are traversable. -/
theorem dfsDirs_true (e : Pos) :
    ∀ (fuel : Nat) (g : Grid) (c : Pos) (ds : List Pos) (v : Finset Pos)
      (p : List Pos) (p2 : List Pos) (v2 : Finset Pos) (g2 : Grid),
      dfsDirs e fuel g c ds v p = some (true, p2, v2, g2) →
      (∀ d ∈ ds, d ∈ unitDirs) →
      p.getLast? = some c → p.Chain' UnitStep → (∀ z ∈ p.tail, Passable g z) →
      p.Nodup → (∀ z ∈ p, z ∈ v) → e ∉ v →
      p2.head? = p.head? ∧ p2.getLast? = some e ∧ p2.Chain' UnitStep ∧
      (∀ z ∈ p2.tail, Passable g z) ∧ p2.Nodup := by
  intro fuel
  induction fuel with
  | zero => intro g c ds v p p2 v2 g2 h; simp [dfsDirs] at h
  | succ fuel ih =>
    intro g c ds v p p2 v2 g2 h hds hlast hchain htail hnd hcells hev
    have hpne : p ≠ [] := by rintro rfl; simp at hlast
    have hhead : p.head? = some (p.head hpne) := List.head?_eq_head hpne
    have hvp : ValidPath g (p.head hpne) c p := ⟨hhead, hlast, hchain, htail⟩
    rcases ds with _ | ⟨d, rest⟩
    · simp [dfsDirs] at h
    · simp only [dfsDirs] at h
      by_cases hg : Passable g (c.1 + d.1, c.2 + d.2) ∧ (c.1 + d.1, c.2 + d.2) ∉ v
      · rw [if_pos hg] at h
        have hsnoc : ValidPath g (p.head hpne) (c.1 + d.1, c.2 + d.2)
            (p ++ [(c.1 + d.1, c.2 + d.2)]) :=
          validPath_snoc hvp
            (unitStep_iff.mpr ⟨d, hds d (List.mem_cons_self _ _), rfl⟩) hg.1
        have hndext : (p ++ [(c.1 + d.1, c.2 + d.2)]).Nodup := by
          simp only [List.nodup_append, List.nodup_singleton]
          refine ⟨hnd, by simp, ?_⟩
          intro z hz
          simp only [List.mem_singleton]
          intro hzeq
          exact hg.2 (hzeq ▸ hcells z hz)
        by_cases hne : (c.1 + d.1, c.2 + d.2) = e
        · rw [if_pos hne] at h
          simp only [Option.some.injEq, Prod.mk.injEq, true_and] at h
          obtain ⟨hp2, _, _⟩ := h
          subst hp2
          exact ⟨by rw [hsnoc.1, hhead], by rw [hsnoc.2.1, hne], hsnoc.2.2.1,
            hsnoc.2.2.2, hndext⟩
        · rw [if_neg hne] at h
          have hev3 : e ∉ insert (c.1 + d.1, c.2 + d.2) v := by
            simp only [Finset.mem_insert]
            rintro (rfl | hev2)
            · exact hne rfl
            · exact hev hev2
          rcases hrec : dfsDirs e fuel g (c.1 + d.1, c.2 + d.2) unitDirs
              (insert (c.1 + d.1, c.2 + d.2) v) (p ++ [(c.1 + d.1, c.2 + d.2)]) with
            _ | ⟨b3, p3, v3, g3⟩
          · rw [hrec] at h
            simp at h
          · rw [hrec] at h
            rcases b3 with _ | _
            · simp only [] at h
              have hg3 : g3 = g :=
                dfsDirs_grid e fuel g _ unitDirs _ _ false p3 v3 g3 hrec
              obtain ⟨hp3, hev3r, _, _⟩ :=
                dfsDirs_false e fuel g _ unitDirs _ _ p3 v3 g3 hrec hev3
              have hmono3 : insert (c.1 + d.1, c.2 + d.2) v ⊆ v3 :=
                dfsDirs_mono e fuel g _ unitDirs _ _ false p3 v3 g3 hrec
              rw [hg3] at h
              have hdrop : p3.dropLast = p := by rw [hp3, List.dropLast_concat]
              rw [hdrop] at h
              exact ih g c rest v3 p p2 v2 g2 h
                (fun d2 hd2 => hds d2 (List.mem_cons_of_mem _ hd2)) hlast hchain
                htail hnd
                (fun z hz => hmono3 (Finset.mem_insert_of_mem (hcells z hz))) hev3r
            · simp only [Option.some.injEq, Prod.mk.injEq, true_and] at h
              obtain ⟨hp2, _, _⟩ := h
              subst hp2
              have := ih g (c.1 + d.1, c.2 + d.2) unitDirs
                (insert (c.1 + d.1, c.2 + d.2) v) (p ++ [(c.1 + d.1, c.2 + d.2)])
                p3 v3 g3 hrec (fun d2 hd2 => hd2) (List.getLast?_concat _)
                hsnoc.2.2.1 hsnoc.2.2.2 hndext
                (fun z hz => by
                  rcases List.mem_append.mp hz with hz | hz
                  · exact Finset.mem_insert_of_mem (hcells z hz)
                  · rw [List.mem_singleton.mp hz]
                    exact Finset.mem_insert_self _ _) hev3
              refine ⟨?_, this.2.1, this.2.2.1, this.2.2.2.1, this.2.2.2.2⟩
              rw [this.1, hsnoc.1, hhead]
      · rw [if_neg hg] at h
        exact ih g c rest v p p2 v2 g2 h
          (fun d2 hd2 => hds d2 (List.mem_cons_of_mem _ hd2)) hlast hchain htail
          hnd hcells hev

/-- Combined top-level specification of `solve_dfs`: the grid comes back
unchanged; the returned path always starts at the discovered start and is a
duplicate-free orthogonal chain; when some valid path to the end exists the
returned path is a valid path to the end, and when none exists the returned
path is just the start cell. -/
theorem solveDFS_main (g : Grid) :
    (solveDFSFull g).2 = g ∧ solveDFS g = (solveDFSFull g).1 ∧
    (solveDFS g).Chain' UnitStep ∧ (solveDFS g).Nodup ∧
    (solveDFS g).head? = some (findStart g) ∧
    ((∃ p0, ValidPath g (findStart g) (findEnd g) p0) →
      ValidPath g (findStart g) (findEnd g) (solveDFS g)) ∧
    ((¬ ∃ p0, ValidPath g (findStart g) (findEnd g) p0) →
      solveDFS g = [findStart g]) := by
  by_cases hse : findStart g = findEnd g
  · have hfull : solveDFSFull g = ([findStart g], g) := by
      unfold solveDFSFull
      rw [if_pos hse]
    have hp : solveDFS g = [findStart g] := by unfold solveDFS; rw [hfull]
    rw [hfull, hp]
    refine ⟨rfl, rfl, List.chain'_singleton _, by simp, rfl, ?_, fun _ => rfl⟩
    intro _
    rw [← hse]
    exact validPath_singleton g (findStart g)
  · have hev : findEnd g ∉ ({findStart g} : Finset Pos) := by
      simp only [Finset.mem_singleton]
      intro h
      exact hse h.symm
    have hfuel : dfsDirs (findEnd g) (dfsFuel g) g (findStart g) unitDirs
        {findStart g} [findStart g] ≠ none := by
      apply dfsDirs_fuel
      have hle : (gridCells g \ {findStart g}).card ≤ (gridCells g).card :=
        Finset.card_le_card Finset.sdiff_subset
      have := card_gridCells g
      have h4 : unitDirs.length = 4 := rfl
      unfold dfsFuel
      omega
    rcases hrun : dfsDirs (findEnd g) (dfsFuel g) g (findStart g) unitDirs
        {findStart g} [findStart g] with _ | ⟨b, p2, v2, g2⟩
    · exact absurd hrun hfuel
    have hg2 : g2 = g := dfsDirs_grid _ _ _ _ _ _ _ b p2 v2 g2 hrun
    have hfull : solveDFSFull g = (p2, g2) := by
      unfold solveDFSFull
      rw [if_neg hse, hrun]
    have hp : solveDFS g = p2 := by unfold solveDFS; rw [hfull]
    have hbase1 : ([findStart g] : List Pos).getLast? = some (findStart g) := rfl
    have hbase2 : ([findStart g] : List Pos).Chain' UnitStep :=
      List.chain'_singleton _
    have hbase3 : ∀ z ∈ ([findStart g] : List Pos).tail, Passable g z := by simp
    have hbase4 : ([findStart g] : List Pos).Nodup := by simp
    have hbase5 : ∀ z ∈ ([findStart g] : List Pos),
        z ∈ ({findStart g} : Finset Pos) := by simp
    rcases b with _ | _
    · obtain ⟨hp2, hev2, hcov, hexp⟩ :=
        dfsDirs_false (findEnd g) (dfsFuel g) g (findStart g) unitDirs
          {findStart g} [findStart g] p2 v2 g2 hrun hev
      have hnopath : ¬ ∃ p0, ValidPath g (findStart g) (findEnd g) p0 := by
        rintro ⟨p0, hvp0⟩
        have hsv : findStart g ∈ v2 :=
          dfsDirs_mono _ _ _ _ _ _ _ false p2 v2 g2 hrun
            (Finset.mem_singleton_self _)
        have hclosed : ∀ z ∈ v2, ∀ d ∈ unitDirs,
            Passable g (z.1 + d.1, z.2 + d.2) → (z.1 + d.1, z.2 + d.2) ∈ v2 := by
          intro z hz d hd hpass
          by_cases hzs : z = findStart g
          · subst hzs
            exact hcov d hd hpass
          · exact hexp z hz (by simp [hzs]) d hd hpass
        exact hev2 (mem_closed_of_validPath g v2 hclosed p0 _ _ hvp0 hsv)
      rw [hfull, hg2, hp, hp2]
      exact ⟨rfl, rfl, hbase2, hbase4, rfl,
        fun hex => absurd hex hnopath, fun _ => rfl⟩
    · obtain ⟨hhead, hlast, hchain, htail, hnd⟩ :=
        dfsDirs_true (findEnd g) (dfsFuel g) g (findStart g) unitDirs
          {findStart g} [findStart g] p2 v2 g2 hrun (fun d hd => hd)
          hbase1 hbase2 hbase3 hbase4 hbase5 hev
      have hvp2 : ValidPath g (findStart g) (findEnd g) p2 :=
        ⟨by rw [hhead]; rfl, hlast, hchain, htail⟩
      rw [hp, hfull, hg2]
      refine ⟨rfl, rfl, hchain, hnd, by rw [hhead]; rfl, fun _ => hvp2, ?_⟩
      intro hno
      exact absurd ⟨p2, hvp2⟩ hno

/-! ## Locating the entry and exit cells -/

theorem mem_scanList {g : Grid} {p : Pos} : p ∈ scanList g ↔ InRange g p := by
  obtain ⟨px, py⟩ := p
  simp only [scanList, List.mem_flatMap, List.mem_map, List.mem_range, InRange,
    Prod.mk.injEq]
  constructor
  · rintro ⟨y, hy, x, hx, h1, h2⟩
    omega
  · rintro ⟨h1, h2, h3, h4⟩
    exact ⟨py.toNat, by omega, px.toNat, by omega, by omega, by omega⟩

theorem findStart_eq {g : Grid} {s : Pos} (h : UniqueCell g 2 s) :
    findStart g = s := by
  unfold findStart
  rcases hfind : (scanList g).find? (fun p => g.cell p.2 p.1 = 2) with _ | a
  · exfalso
    have hmem : s ∈ scanList g := mem_scanList.mpr (mem_gridCells.mp h.1)
    have hno := List.find?_eq_none.mp hfind s hmem
    simp only [decide_eq_true_eq] at hno
    exact hno h.2.1
  · have hpa := List.find?_some hfind
    have hma := List.mem_of_find?_eq_some hfind
    simp only [decide_eq_true_eq] at hpa
    have has : a = s := h.2.2 a (mem_gridCells.mpr (mem_scanList.mp hma)) hpa
    rw [hfind]
    simpa using has

theorem findEnd_eq {g : Grid} {e : Pos} (h : UniqueCell g 3 e) :
    findEnd g = e := by
  unfold findEnd
  rcases hfind : (scanList g).find? (fun p => g.cell p.2 p.1 = 3) with _ | a
  · exfalso
    have hmem : e ∈ scanList g := mem_scanList.mpr (mem_gridCells.mp h.1)
    have hno := List.find?_eq_none.mp hfind e hmem
    simp only [decide_eq_true_eq] at hno
    exact hno h.2.1
  · have hpa := List.find?_some hfind
    have hma := List.mem_of_find?_eq_some hfind
    simp only [decide_eq_true_eq] at hpa
    have hae : a = e := h.2.2 a (mem_gridCells.mpr (mem_scanList.mp hma)) hpa
    rw [hfind]
    simpa using hae

/-! ## Example grids for concrete instantiations -/

/-- A hand-built 2-by-2 grid whose entry `(0,0)` and exit `(1,1)` are
separated by walls. -/
def exGridBlocked : Grid :=
  ⟨2, 2, fun y x => if y = 0 ∧ x = 0 then 2 else if y = 1 ∧ x = 1 then 3 else 1⟩

/-- A hand-built 2-by-2 grid with the passage path `(0,0), (1,0), (1,1)`. -/
def exGridOpen : Grid :=
  ⟨2, 2, fun y x => if y = 0 ∧ x = 0 then 2 else if y = 1 ∧ x = 1 then 3
    else if y = 0 ∧ x = 1 then 0 else 1⟩

theorem exGridBlocked_no_path :
    ¬ ∃ p0, ValidPath exGridBlocked (0, 0) (1, 1) p0 := by
  rintro ⟨p, hh, hl, hc, ht⟩
  rcases p with _ | ⟨a, t⟩
  · simp at hh
  have ha : a = ((0 : Int), (0 : Int)) := by simpa using hh
  rcases t with _ | ⟨b, t2⟩
  · have hae : a = ((1 : Int), (1 : Int)) := by simpa using hl
    rw [ha] at hae
    exact absurd hae (by decide)
  · have hstep : UnitStep a b := (List.chain'_cons.mp hc).1
    have hbp : Passable exGridBlocked b := ht b (by simp)
    obtain ⟨d, hd, rfl⟩ := unitStep_iff.mp hstep
    subst ha
    simp only [unitDirs, List.mem_cons, List.not_mem_nil, or_false] at hd
    rcases hd with rfl | rfl | rfl | rfl <;> revert hbp <;> decide

theorem exGridOpen_path :
    ValidPath exGridOpen (0, 0) (1, 1) [(0, 0), (1, 0), (1, 1)] :=
  ⟨rfl, rfl,
    List.chain'_cons.mpr ⟨by decide,
      List.chain'_cons.mpr ⟨by decide, List.chain'_singleton _⟩⟩,
    by decide⟩

/-! ## Claims about the solvers -/

/-- C3: on any grid whose entry cell and exit cell are connected by no
orthogonal walk through non-wall cells, `solve_bfs` returns the empty
sequence and `solve_dfs` returns just the start cell — a no-path signal,
since the start differs from the exit; both embedded solvers are total
functions, so no fault is raised. -/
theorem c3_solvers_on_unsolvable (g : Grid) (s e : Pos)
    (h2 : UniqueCell g 2 s) (h3 : UniqueCell g 3 e)
    (hno : ¬ ∃ p0, ValidPath g s e p0) :
    solveBFS g = [] ∧ solveDFS g = [s] ∧ s ≠ e := by
  have hs := findStart_eq h2
  have he := findEnd_eq h3
  have hsne : s ≠ e := by
    rintro rfl
    exact hno ⟨[s], validPath_singleton g s⟩
  obtain ⟨_, hsound, _⟩ := solveBFS_main g
  have hbfs : solveBFS g = [] := by
    by_contra hne
    obtain ⟨hvp, _, _⟩ := hsound hne
    rw [hs, he] at hvp
    exact hno ⟨_, hvp⟩
  obtain ⟨_, _, _, _, _, _, hdfsno⟩ := solveDFS_main g
  refine ⟨hbfs, ?_, hsne⟩
  rw [← hs]
  apply hdfsno
  rw [hs, he]
  exact hno

theorem c3_solvers_on_unsolvable_witness :
    UniqueCell exGridBlocked 2 (0, 0) ∧ UniqueCell exGridBlocked 3 (1, 1) ∧
    (¬ ∃ p0, ValidPath exGridBlocked (0, 0) (1, 1) p0) ∧
    (solveBFS exGridBlocked = [] ∧ solveDFS exGridBlocked = [(0, 0)] ∧
      ((0 : Int), (0 : Int)) ≠ ((1 : Int), (1 : Int))) :=
  ⟨by decide, by decide, exGridBlocked_no_path,
    c3_solvers_on_unsolvable exGridBlocked (0, 0) (1, 1) (by decide) (by decide)
      exGridBlocked_no_path⟩

/-- C4: on every grid the path returned by `solve_bfs` is at most as long as
the path returned by `solve_dfs`; and with an entry cell `s` and exit cell
`e`, the BFS path length is a lower bound of the length of every orthogonal
walk path from `s` to `e`. -/
theorem c4_bfs_shortest (g : Grid) (s e : Pos) :
    (solveBFS g).length ≤ (solveDFS g).length ∧
    (UniqueCell g 2 s → UniqueCell g 3 e →
      ∀ p2, ValidPath g s e p2 → (solveBFS g).length ≤ p2.length) := by
  obtain ⟨_, hsound, hcomp⟩ := solveBFS_main g
  have hmin : ∀ p2, ValidPath g (findStart g) (findEnd g) p2 →
      (solveBFS g).length ≤ p2.length := by
    intro p2 hvp2
    by_cases hb : solveBFS g = []
    · rw [hb]
      simp
    · exact (hsound hb).2.2 p2 hvp2
  constructor
  · by_cases hex : ∃ p0, ValidPath g (findStart g) (findEnd g) p0
    · obtain ⟨_, _, _, _, _, hdfs, _⟩ := solveDFS_main g
      exact hmin _ (hdfs hex)
    · have hb : solveBFS g = [] := by
        by_contra hne
        exact hex ⟨_, (hsound hne).1⟩
      rw [hb]
      simp
  · intro h2 h3 p2 hvp2
    exact hmin p2 (by rw [findStart_eq h2, findEnd_eq h3]; exact hvp2)

theorem c4_bfs_shortest_witness :
    UniqueCell exGridOpen 2 (0, 0) ∧ UniqueCell exGridOpen 3 (1, 1) ∧
    ValidPath exGridOpen (0, 0) (1, 1) [(0, 0), (1, 0), (1, 1)] ∧
    (solveBFS exGridOpen).length ≤ ([(0, 0), (1, 0), (1, 1)] : List Pos).length :=
  ⟨by decide, by decide, exGridOpen_path,
    (c4_bfs_shortest exGridOpen (0, 0) (1, 1)).2 (by decide) (by decide)
      [(0, 0), (1, 0), (1, 1)] exGridOpen_path⟩

/-- C5: every path either solver returns steps one orthogonal unit at a time
and never repeats a coordinate; and when the grid has an entry cell `s`, an
exit cell `e` and some valid path between them, both returned paths start at
`s` and end at `e`. -/
theorem c5_path_shape (g : Grid) (s e : Pos) :
    (solveBFS g).Chain' UnitStep ∧ (solveBFS g).Nodup ∧
    (solveDFS g).Chain' UnitStep ∧ (solveDFS g).Nodup ∧
    (UniqueCell g 2 s → UniqueCell g 3 e → (∃ p0, ValidPath g s e p0) →
      (solveBFS g).head? = some s ∧ (solveBFS g).getLast? = some e ∧
      (solveDFS g).head? = some s ∧ (solveDFS g).getLast? = some e) := by
  obtain ⟨_, hsound, hcomp⟩ := solveBFS_main g
  obtain ⟨_, _, hdchain, hdnd, hdhead, hdfs, _⟩ := solveDFS_main g
  have hbchain : (solveBFS g).Chain' UnitStep ∧ (solveBFS g).Nodup := by
    by_cases hb : solveBFS g = []
    · rw [hb]
      exact ⟨by simp, by simp⟩
    · obtain ⟨hvp, hnd, _⟩ := hsound hb
      exact ⟨hvp.2.2.1, hnd⟩
  refine ⟨hbchain.1, hbchain.2, hdchain, hdnd, ?_⟩
  intro h2 h3 hex
  have hs := findStart_eq h2
  have he := findEnd_eq h3
  have hex2 : ∃ p0, ValidPath g (findStart g) (findEnd g) p0 := by
    rw [hs, he]
    exact hex
  have hbne := hcomp hex2
  obtain ⟨hvp, _, _⟩ := hsound hbne
  have hdvp := hdfs hex2
  rw [hs, he] at hvp hdvp
  exact ⟨hvp.1, hvp.2.1, hdvp.1, hdvp.2.1⟩

theorem c5_path_shape_witness :
    UniqueCell exGridOpen 2 (0, 0) ∧ UniqueCell exGridOpen 3 (1, 1) ∧
    (∃ p0, ValidPath exGridOpen (0, 0) (1, 1) p0) ∧
    ((solveBFS exGridOpen).head? = some (0, 0) ∧
      (solveBFS exGridOpen).getLast? = some (1, 1) ∧
      (solveDFS exGridOpen).head? = some (0, 0) ∧
      (solveDFS exGridOpen).getLast? = some (1, 1)) :=
  ⟨by decide, by decide, ⟨[(0, 0), (1, 0), (1, 1)], exGridOpen_path⟩,
    (c5_path_shape exGridOpen (0, 0) (1, 1)).2.2.2.2 (by decide) (by decide)
      ⟨[(0, 0), (1, 0), (1, 1)], exGridOpen_path⟩⟩

/-- C10: neither `solve_bfs` nor `solve_dfs` modifies the grid: the maze each
method's state carries is returned identical, cell for cell, to its input. -/
theorem c10_solvers_frame (g : Grid) :
    (solveBFSFull g).2 = g ∧ (solveDFSFull g).2 = g ∧
    ∀ y x : Int, ((solveBFSFull g).2).cell y x = g.cell y x ∧
      ((solveDFSFull g).2).cell y x = g.cell y x := by
  have h1 := solveBFSFull_snd g
  have h2 := (solveDFS_main g).1
  exact ⟨h1, h2, fun y x => ⟨by rw [h1], by rw [h2]⟩⟩

/-! ## Generator: supporting lemmas -/

theorem except_bind_ok {ε α β : Type} (a : α) (f : α → Except ε β) :
    (Except.ok a : Except ε α) >>= f = f a := rfl

theorem randPick_ok {o : Oracle} {t : Nat} {lo hi : Int} (hlt : lo < hi) :
    randPick o t lo hi = .ok (lo + (Int.ofNat (o t)) % (hi - lo)) := by
  unfold randPick
  rw [if_pos hlt]

theorem randPick_val_bounds {o : Oracle} {t : Nat} {lo hi : Int} (hlt : lo < hi) :
    lo ≤ lo + (Int.ofNat (o t)) % (hi - lo) ∧
      lo + (Int.ofNat (o t)) % (hi - lo) < hi := by
  have h1 : 0 ≤ (Int.ofNat (o t)) % (hi - lo) := Int.emod_nonneg _ (by omega)
  have h2 : (Int.ofNat (o t)) % (hi - lo) < hi - lo :=
    Int.emod_lt_of_pos _ (by omega)
  omega

/-- A grid change that leaves traversability intact preserves valid paths. -/
theorem validPath_mono {gA gB : Grid}
    (hmono : ∀ z : Pos, Passable gA z → Passable gB z)
    {s e : Pos} {p : List Pos} (h : ValidPath gA s e p) : ValidPath gB s e p :=
  ⟨h.1, h.2.1, h.2.2.1, fun z hz => hmono z (h.2.2.2 z hz)⟩

theorem length_filter_le_of_imp {α : Type} (l : List α) (p q : α → Bool)
    (h : ∀ a ∈ l, p a = true → q a = true) :
    (l.filter p).length ≤ (l.filter q).length := by
  induction l with
  | nil => simp
  | cons a t ih =>
    have iht := ih fun b hb hpb => h b (by simp [hb]) hpb
    simp only [List.filter_cons]
    by_cases hp : p a = true
    · rw [if_pos hp, if_pos (h a (by simp) hp)]
      simpa using iht
    · rw [if_neg hp]
      by_cases hq : q a = true
      · rw [if_pos hq]
        simp only [List.length_cons]
        omega
      · rw [if_neg hq]
        exact iht

theorem passageCount_mono {gA gB : Grid}
    (h0 : ∀ y x : Int, gA.cell y x = 0 → gB.cell y x = 0) (x y : Int) :
    passageCount gA x y ≤ passageCount gB x y := by
  unfold passageCount
  apply length_filter_le_of_imp
  intro d _ hp
  simp only [decide_eq_true_eq] at hp ⊢
  exact h0 _ _ hp

/-- Full behavior of `_add_extra_paths`: it always succeeds on a grid with
both dimensions at least five, keeps the dimensions, and each cell is either
untouched or was a wall strictly inside the border-minus-one margin that got
converted to a passage while having at least two passage neighbors; passages
are never destroyed. -/
theorem extraLoop_spec (o : Oracle) :
    ∀ (count : Nat) (g : Grid) (t : Nat), 5 ≤ g.width → 5 ≤ g.height →
    ∃ g2 t2, extraLoop o count g t = .ok (g2, t2) ∧
      g2.width = g.width ∧ g2.height = g.height ∧
      (∀ y x : Int, g2.cell y x = g.cell y x ∨
        (g2.cell y x = 0 ∧ g.cell y x = 1 ∧
          2 ≤ x ∧ x ≤ g.width - 3 ∧ 2 ≤ y ∧ y ≤ g.height - 3 ∧
          2 ≤ passageCount g2 x y)) ∧
      (∀ y x : Int, g.cell y x = 0 → g2.cell y x = 0) := by
  intro count
  induction count with
  | zero =>
    intro g t hw hh
    exact ⟨g, t, rfl, rfl, rfl, fun y x => Or.inl rfl, fun y x h => h⟩
  | succ k ih =>
    intro g t hw hh
    have hx := @randPick_ok o t 2 (g.width - 2) (by omega)
    have hy := @randPick_ok o (t + 1) 2 (g.height - 2) (by omega)
    obtain ⟨hxlo, hxhi⟩ := @randPick_val_bounds o t 2 (g.width - 2) (by omega)
    obtain ⟨hylo, hyhi⟩ :=
      @randPick_val_bounds o (t + 1) 2 (g.height - 2) (by omega)
    have hrw : extraLoop o (Nat.succ k) g t =
        (if g.cell (2 + (Int.ofNat (o (t + 1))) % (g.height - 2 - 2))
            (2 + (Int.ofNat (o t)) % (g.width - 2 - 2)) = 1 then
          if 2 ≤ passageCount g (2 + (Int.ofNat (o t)) % (g.width - 2 - 2))
              (2 + (Int.ofNat (o (t + 1))) % (g.height - 2 - 2)) then
            match store g (2 + (Int.ofNat (o (t + 1))) % (g.height - 2 - 2))
                (2 + (Int.ofNat (o t)) % (g.width - 2 - 2)) 0 with
            | .error m => .error m
            | .ok g2 => extraLoop o k g2 (t + 2)
          else extraLoop o k g (t + 2)
        else extraLoop o k g (t + 2)) := by
      simp only [extraLoop, hx, hy]
    set xv := 2 + (Int.ofNat (o t)) % (g.width - 2 - 2) with hxv
    set yv := 2 + (Int.ofNat (o (t + 1))) % (g.height - 2 - 2) with hyv
    by_cases hwall : g.cell yv xv = 1
    · by_cases hp2 : 2 ≤ passageCount g xv yv
      · have hstore : store g yv xv 0 = .ok (gridSet g yv xv 0) :=
          store_ok_of_inRange (by constructor <;> omega)
        obtain ⟨g2, t2, hrun, hdw, hdh, hdisj, hzero⟩ :=
          ih (gridSet g yv xv 0) (t + 2) (by rw [gridSet_width]; omega)
            (by rw [gridSet_height]; omega)
        have hzero1 : ∀ y x : Int, g.cell y x = 0 →
            (gridSet g yv xv 0).cell y x = 0 := by
          intro y x h0
          by_cases hyx : y = yv ∧ x = xv
          · rw [hyx.1, hyx.2, gridSet_cell_self]
          · rw [gridSet_cell_of_ne _ _ _ _ hyx]
            exact h0
        refine ⟨g2, t2, ?_, by rwa [gridSet_width] at hdw,
          by rwa [gridSet_height] at hdh, ?_, ?_⟩
        · rw [hrw, if_pos hwall, if_pos hp2, hstore]
          exact hrun
        · intro y x
          rcases hdisj y x with heq | ⟨h0, h1, hm⟩
          · by_cases hyx : y = yv ∧ x = xv
            · right
              rw [hyx.1, hyx.2] at heq ⊢
              rw [gridSet_cell_self] at heq
              refine ⟨heq, hwall, by omega, by omega, by omega, by omega, ?_⟩
              calc 2 ≤ passageCount g xv yv := hp2
                _ ≤ passageCount (gridSet g yv xv 0) xv yv :=
                    passageCount_mono hzero1 xv yv
                _ ≤ passageCount g2 xv yv := passageCount_mono hzero xv yv
            · left
              rw [gridSet_cell_of_ne _ _ _ _ hyx] at heq
              exact heq
          · by_cases hyx : y = yv ∧ x = xv
            · exfalso
              rw [hyx.1, hyx.2, gridSet_cell_self] at h1
              exact absurd h1 (by omega)
            · rw [gridSet_cell_of_ne _ _ _ _ hyx] at h1
              rw [gridSet_width] at hm
              rw [gridSet_height] at hm
              exact Or.inr ⟨h0, h1, hm⟩
        · intro y x h0
          exact hzero y x (hzero1 y x h0)
      · obtain ⟨g2, t2, hrun, hdw, hdh, hdisj, hzero⟩ := ih g (t + 2) hw hh
        refine ⟨g2, t2, ?_, hdw, hdh, hdisj, hzero⟩
        rw [hrw, if_pos hwall, if_neg hp2]
        exact hrun
    · obtain ⟨g2, t2, hrun, hdw, hdh, hdisj, hzero⟩ := ih g (t + 2) hw hh
      refine ⟨g2, t2, ?_, hdw, hdh, hdisj, hzero⟩
      rw [hrw, if_neg hwall]
      exact hrun

theorem rotGrid_width (g : Grid) : (rotGrid g).width = g.width := rfl

theorem rotGrid_height (g : Grid) : (rotGrid g).height = g.height := rfl

/-- Full behavior of `_set_start_end` on a grid with both dimensions at
least five. -/
theorem setStartEnd_spec {g : Grid} (hw : 5 ≤ g.width) (hh : 5 ≤ g.height) :
    ∃ g2, setStartEnd g = .ok g2 ∧ g2.width = g.width ∧ g2.height = g.height ∧
      ∀ y x : Int, g2.cell y x =
        if y = g.height - 3 ∧ x = g.width - 2 then 0
        else if y = g.height - 2 ∧ x = g.width - 3 then 0
        else if y = 2 ∧ x = 1 then 0
        else if y = 1 ∧ x = 2 then 0
        else if y = g.height - 2 ∧ x = g.width - 2 then 3
        else if y = 1 ∧ x = 1 then 2
        else g.cell y x := by
  have h1 : store g 1 1 2 = .ok (gridSet g 1 1 2) :=
    store_ok_of_inRange (by refine ⟨by omega, by omega, by omega, by omega⟩)
  have h2 : store (gridSet g 1 1 2) (g.height - 2) (g.width - 2) 3 =
      .ok (gridSet (gridSet g 1 1 2) (g.height - 2) (g.width - 2) 3) :=
    store_ok_of_inRange (by
      simp only [gridSet_height, gridSet_width]
      refine ⟨by omega, by omega, by omega, by omega⟩)
  have h3 : store (gridSet (gridSet g 1 1 2) (g.height - 2) (g.width - 2) 3)
      1 2 0 = .ok (gridSet (gridSet (gridSet g 1 1 2)
        (g.height - 2) (g.width - 2) 3) 1 2 0) :=
    store_ok_of_inRange (by
      simp only [gridSet_height, gridSet_width]
      refine ⟨by omega, by omega, by omega, by omega⟩)
  have h4 : store (gridSet (gridSet (gridSet g 1 1 2)
        (g.height - 2) (g.width - 2) 3) 1 2 0) 2 1 0 =
      .ok (gridSet (gridSet (gridSet (gridSet g 1 1 2)
        (g.height - 2) (g.width - 2) 3) 1 2 0) 2 1 0) :=
    store_ok_of_inRange (by
      simp only [gridSet_height, gridSet_width]
      refine ⟨by omega, by omega, by omega, by omega⟩)
  have h5 : store (gridSet (gridSet (gridSet (gridSet g 1 1 2)
        (g.height - 2) (g.width - 2) 3) 1 2 0) 2 1 0)
      (g.height - 2) (g.width - 3) 0 =
      .ok (gridSet (gridSet (gridSet (gridSet (gridSet g 1 1 2)
        (g.height - 2) (g.width - 2) 3) 1 2 0) 2 1 0)
        (g.height - 2) (g.width - 3) 0) :=
    store_ok_of_inRange (by
      simp only [gridSet_height, gridSet_width]
      refine ⟨by omega, by omega, by omega, by omega⟩)
  have h6 : store (gridSet (gridSet (gridSet (gridSet (gridSet g 1 1 2)
        (g.height - 2) (g.width - 2) 3) 1 2 0) 2 1 0)
        (g.height - 2) (g.width - 3) 0) (g.height - 3) (g.width - 2) 0 =
      .ok (gridSet (gridSet (gridSet (gridSet (gridSet (gridSet g 1 1 2)
        (g.height - 2) (g.width - 2) 3) 1 2 0) 2 1 0)
        (g.height - 2) (g.width - 3) 0) (g.height - 3) (g.width - 2) 0) :=
    store_ok_of_inRange (by
      simp only [gridSet_height, gridSet_width]
      refine ⟨by omega, by omega, by omega, by omega⟩)
  refine ⟨gridSet (gridSet (gridSet (gridSet (gridSet (gridSet g 1 1 2)
      (g.height - 2) (g.width - 2) 3) 1 2 0) 2 1 0)
      (g.height - 2) (g.width - 3) 0) (g.height - 3) (g.width - 2) 0,
    ?_, rfl, rfl, ?_⟩
  · unfold setStartEnd
    simp only [h1, except_bind_ok, h2, h3, h4, h5, h6]
  · intro y x
    simp only [gridSet]

/-- Full behavior of `_rotate_maze` on a grid with both dimensions at least
two: the rows and columns are reversed and the two endpoint positions keep
their original values. -/
theorem rotateMaze_spec {g : Grid} (hh : 2 ≤ g.height) (hw : 2 ≤ g.width) :
    ∃ g2, rotateMaze g = .ok g2 ∧ g2.width = g.width ∧ g2.height = g.height ∧
      ∀ y x : Int, g2.cell y x =
        if y = g.height - 2 ∧ x = g.width - 2 then
          g.cell (g.height - 2) (g.width - 2)
        else if y = 1 ∧ x = 1 then g.cell 1 1
        else g.cell (g.height - 1 - y) (g.width - 1 - x) := by
  have hr1 : readCell (rotGrid g) 1 1 = .ok ((rotGrid g).cell 1 1) := by
    unfold readCell
    rw [if_pos (by
      simp only [rotGrid_height, rotGrid_width]
      refine ⟨by omega, by omega, by omega, by omega⟩)]
  have hr2 : readCell (rotGrid g) ((rotGrid g).height - 2)
      ((rotGrid g).width - 2) = .ok ((rotGrid g).cell
        ((rotGrid g).height - 2) ((rotGrid g).width - 2)) := by
    unfold readCell
    rw [if_pos (by
      simp only [rotGrid_height, rotGrid_width]
      refine ⟨by omega, by omega, by omega, by omega⟩)]
  have hs1 : store (rotGrid g) 1 1 ((rotGrid g).cell
      ((rotGrid g).height - 2) ((rotGrid g).width - 2)) =
      .ok (gridSet (rotGrid g) 1 1 ((rotGrid g).cell
        ((rotGrid g).height - 2) ((rotGrid g).width - 2))) :=
    store_ok_of_inRange (by
      simp only [rotGrid_height, rotGrid_width]
      refine ⟨by omega, by omega, by omega, by omega⟩)
  have hs2 : store (gridSet (rotGrid g) 1 1 ((rotGrid g).cell
      ((rotGrid g).height - 2) ((rotGrid g).width - 2)))
      ((rotGrid g).height - 2) ((rotGrid g).width - 2)
      ((rotGrid g).cell 1 1) =
      .ok (gridSet (gridSet (rotGrid g) 1 1 ((rotGrid g).cell
        ((rotGrid g).height - 2) ((rotGrid g).width - 2)))
        ((rotGrid g).height - 2) ((rotGrid g).width - 2)
        ((rotGrid g).cell 1 1)) :=
    store_ok_of_inRange (by
      simp only [gridSet_height, gridSet_width, rotGrid_height, rotGrid_width]
      refine ⟨by omega, by omega, by omega, by omega⟩)
  refine ⟨gridSet (gridSet (rotGrid g) 1 1 ((rotGrid g).cell
      ((rotGrid g).height - 2) ((rotGrid g).width - 2)))
      ((rotGrid g).height - 2) ((rotGrid g).width - 2)
      ((rotGrid g).cell 1 1), ?_, rfl, rfl, ?_⟩
  · unfold rotateMaze
    simp only [hr1, except_bind_ok, hr2, hs1, hs2]
  · intro y x
    show (if y = (rotGrid g).height - 2 ∧ x = (rotGrid g).width - 2 then
        (rotGrid g).cell 1 1
      else if y = 1 ∧ x = 1 then
        (rotGrid g).cell ((rotGrid g).height - 2) ((rotGrid g).width - 2)
      else (rotGrid g).cell y x) = _
    simp only [rotGrid_height, rotGrid_width]
    show (if y = g.height - 2 ∧ x = g.width - 2 then
        g.cell (g.height - 1 - 1) (g.width - 1 - 1)
      else if y = 1 ∧ x = 1 then
        g.cell (g.height - 1 - (g.height - 2)) (g.width - 1 - (g.width - 2))
      else g.cell (g.height - 1 - y) (g.width - 1 - x)) = _
    have e1 : g.height - 1 - 1 = g.height - 2 := by omega
    have e2 : g.width - 1 - 1 = g.width - 2 := by omega
    have e3 : g.height - 1 - (g.height - 2) = 1 := by omega
    have e4 : g.width - 1 - (g.width - 2) = 1 := by omega
    rw [e1, e2, e3, e4]

/-- C7: applying the 180-degree rotation operation — row-and-column reversal
followed by the endpoint swap at `(1,1)` and `(height-2, width-2)` — twice
yields a grid identical, cell for cell, to the original. -/
theorem c7_rotation_involutive (g : Grid) (hh : 2 ≤ g.height)
    (hw : 2 ≤ g.width) :
    ∃ g2 g3, rotateMaze g = .ok g2 ∧ rotateMaze g2 = .ok g3 ∧
      g3.width = g.width ∧ g3.height = g.height ∧
      ∀ y x : Int, g3.cell y x = g.cell y x := by
  obtain ⟨g2, hrun2, hw2, hh2, hcell2⟩ := rotateMaze_spec hh hw
  obtain ⟨g3, hrun3, hw3, hh3, hcell3⟩ := rotateMaze_spec
    (g := g2) (by omega) (by omega)
  refine ⟨g2, g3, hrun2, hrun3, by omega, by omega, ?_⟩
  intro y x
  rw [hcell3 y x]
  rw [hw2, hh2]
  by_cases hA : y = g.height - 2 ∧ x = g.width - 2
  · rw [if_pos hA]
    rw [hcell2 (g.height - 2) (g.width - 2)]
    rw [if_pos ⟨rfl, rfl⟩]
    rw [hA.1, hA.2]
  · rw [if_neg hA]
    by_cases hB : y = 1 ∧ x = 1
    · rw [if_pos hB]
      have hne : ¬((1 : Int) = g.height - 2 ∧ (1 : Int) = g.width - 2) := by
        intro hcon
        exact hA ⟨by omega, by omega⟩
      rw [hcell2 1 1, if_neg hne, if_pos ⟨rfl, rfl⟩, hB.1, hB.2]
    · rw [if_neg hB]
      rw [hcell2 (g.height - 1 - y) (g.width - 1 - x)]
      have hnA : ¬(g.height - 1 - y = g.height - 2 ∧
          g.width - 1 - x = g.width - 2) := by
        intro hcon
        exact hB ⟨by omega, by omega⟩
      have hnB : ¬(g.height - 1 - y = 1 ∧ g.width - 1 - x = 1) := by
        intro hcon
        exact hA ⟨by omega, by omega⟩
      rw [if_neg hnA, if_neg hnB]
      have e1 : g.height - 1 - (g.height - 1 - y) = y := by omega
      have e2 : g.width - 1 - (g.width - 1 - x) = x := by omega
      rw [e1, e2]

theorem c7_rotation_involutive_witness :
    (2 : Int) ≤ exGridOpen.height ∧ (2 : Int) ≤ exGridOpen.width ∧
    (∃ g2 g3, rotateMaze exGridOpen = .ok g2 ∧ rotateMaze g2 = .ok g3 ∧
      g3.width = exGridOpen.width ∧ g3.height = exGridOpen.height ∧
      ∀ y x : Int, g3.cell y x = exGridOpen.cell y x) :=
  ⟨by decide, by decide,
    c7_rotation_involutive exGridOpen (by decide) (by decide)⟩

/-- A 5-by-5 all-wall grid for concrete instantiation. -/
def exGrid5 : Grid := ⟨5, 5, fun _ _ => 1⟩

/-- C8: the extra-path injection step succeeds and modifies only cells
strictly inside the border-minus-one margin `[2, width-3] × [2, height-3]`;
any modified cell was a wall, became a passage, and has at least two passage
orthogonal neighbors in the resulting grid; every other cell — in particular
every border cell — is left unchanged. -/
theorem c8_extra_paths_frame (o : Oracle) (g : Grid) (count t : Nat)
    (hw : 5 ≤ g.width) (hh : 5 ≤ g.height) :
    ∃ g2 t2, extraLoop o count g t = .ok (g2, t2) ∧
      (∀ y x : Int, ¬(2 ≤ x ∧ x ≤ g.width - 3 ∧ 2 ≤ y ∧ y ≤ g.height - 3) →
        g2.cell y x = g.cell y x) ∧
      (∀ y x : Int, g2.cell y x ≠ g.cell y x →
        (2 ≤ x ∧ x ≤ g.width - 3 ∧ 2 ≤ y ∧ y ≤ g.height - 3) ∧
        g.cell y x = 1 ∧ g2.cell y x = 0 ∧ 2 ≤ passageCount g2 x y) := by
  obtain ⟨g2, t2, hrun, _, _, hdisj, _⟩ := extraLoop_spec o count g t hw hh
  refine ⟨g2, t2, hrun, ?_, ?_⟩
  · intro y x hout
    rcases hdisj y x with heq | ⟨_, _, hx1, hx2, hy1, hy2, _⟩
    · exact heq
    · exact absurd ⟨hx1, hx2, hy1, hy2⟩ hout
  · intro y x hne
    rcases hdisj y x with heq | ⟨h0, h1, hx1, hx2, hy1, hy2, hpc⟩
    · exact absurd heq hne
    · exact ⟨⟨hx1, hx2, hy1, hy2⟩, h1, h0, hpc⟩

theorem c8_extra_paths_frame_witness :
    (5 : Int) ≤ exGrid5.width ∧ (5 : Int) ≤ exGrid5.height ∧
    (∃ g2 t2, extraLoop (fun _ => 0) 3 exGrid5 0 = .ok (g2, t2) ∧
      (∀ y x : Int,
        ¬(2 ≤ x ∧ x ≤ exGrid5.width - 3 ∧ 2 ≤ y ∧ y ≤ exGrid5.height - 3) →
        g2.cell y x = exGrid5.cell y x) ∧
      (∀ y x : Int, g2.cell y x ≠ exGrid5.cell y x →
        (2 ≤ x ∧ x ≤ exGrid5.width - 3 ∧ 2 ≤ y ∧ y ≤ exGrid5.height - 3) ∧
        exGrid5.cell y x = 1 ∧ g2.cell y x = 0 ∧
        2 ≤ passageCount g2 x y)) :=
  ⟨by decide, by decide,
    c8_extra_paths_frame (fun _ => 0) exGrid5 3 0 (by decide) (by decide)⟩

/-- C9: the implementation performs no validation of degenerate dimensions.
A 2-by-2 request is silently normalized to 3-by-3 and a full maze is
generated and returned (one, moreover, with no entry cell), and a 1-by-1
request fails with an `IndexError` on the first write inside generation;
in neither case is a configuration error raised before generation starts. -/
theorem c9_degenerate_dimensions_not_rejected :
    (generateMaze (fun _ => 0) Difficulty.hard 2 2).toOption.map gridRows =
      some [[1, 0, 1], [0, 3, 0], [1, 0, 1]] ∧
    generateMaze (fun _ => 0) Difficulty.hard 1 1 =
      Except.error "IndexError" := by
  constructor
  · decide
  · rfl

/-! ## The carving loop -/

/-- The strict interior cells the carving loop can ever visit or write. -/
def carveCells (g : Grid) : Finset Pos :=
  Finset.Icc 1 (g.width - 2) ×ˢ Finset.Icc 1 (g.height - 2)

theorem mem_carveCells {g : Grid} {p : Pos} : p ∈ carveCells g ↔
    1 ≤ p.1 ∧ p.1 ≤ g.width - 2 ∧ 1 ≤ p.2 ∧ p.2 ≤ g.height - 2 := by
  obtain ⟨x, y⟩ := p
  simp only [carveCells, Finset.mem_product, Finset.mem_Icc]
  omega

theorem card_sdiff_insert_gen {S v : Finset Pos} {n : Pos}
    (hn : n ∈ S) (hnv : n ∉ v) :
    (S \ insert n v).card + 1 = (S \ v).card := by
  have hmem : n ∈ S \ v := Finset.mem_sdiff.mpr ⟨hn, hnv⟩
  have heq : S \ insert n v = (S \ v).erase n := by
    ext z
    simp only [Finset.mem_sdiff, Finset.mem_insert, Finset.mem_erase]
    tauto
  rw [heq, Finset.card_erase_of_mem hmem]
  have hpos : 0 < (S \ v).card := Finset.card_pos.mpr ⟨n, hmem⟩
  omega

/-- The loop invariant of the carving phase: visited cells are odd-coordinate
strict-interior passages reachable from `(1,1)`, cells off the stack are
fully expanded, every cell is a passage or a wall, and everything outside the
strict interior is still a wall. -/
structure CarveInv (g : Grid) (stack : List Pos) (v : Finset Pos) : Prop where
  startMem : ((1, 1) : Pos) ∈ v
  stackSub : ∀ c ∈ stack, c ∈ v
  oddCells : ∀ c ∈ v, c.1 % 2 = 1 ∧ c.2 % 2 = 1 ∧ 0 < c.1 ∧
    c.1 < g.width - 1 ∧ 0 < c.2 ∧ c.2 < g.height - 1
  passages : ∀ c ∈ v, g.cell c.2 c.1 = 0
  reach : ∀ c ∈ v, ∃ p, ValidPath g (1, 1) c p
  processed : ∀ c ∈ v, c ∈ stack ∨ ∀ d ∈ genDirs,
    (0 < c.1 + d.1 ∧ c.1 + d.1 < g.width - 1 ∧
      0 < c.2 + d.2 ∧ c.2 + d.2 < g.height - 1) → (c.1 + d.1, c.2 + d.2) ∈ v
  valRange : ∀ y x : Int, g.cell y x = 0 ∨ g.cell y x = 1
  outerWalls : ∀ y x : Int,
    ¬(1 ≤ x ∧ x ≤ g.width - 2 ∧ 1 ≤ y ∧ y ≤ g.height - 2) → g.cell y x = 1

/-- Master lemma for the carving loop: with the invariant and enough fuel it
terminates successfully, preserving dimensions, and its final visited set
extends the input one and satisfies the invariant with an empty stack. -/
theorem carveLoop_spec (o : Oracle) :
    ∀ (fuel : Nat) (g : Grid) (stack : List Pos) (v : Finset Pos) (t : Nat),
    CarveInv g stack v →
    2 * ((carveCells g) \ v).card + stack.length < fuel →
    ∃ g2 t2 v2, carveLoop o fuel g stack v t = .ok (g2, t2) ∧
      g2.width = g.width ∧ g2.height = g.height ∧ v ⊆ v2 ∧ CarveInv g2 [] v2 := by
  intro fuel
  induction fuel with
  | zero => intro g stack v t _ hm; omega
  | succ fuel ih =>
    intro g stack v t hInv hm
    rcases stack with _ | ⟨c, rest⟩
    · exact ⟨g, t, v, by simp [carveLoop], rfl, rfl, Finset.Subset.refl v, hInv⟩
    · have hc : c ∈ v := hInv.stackSub c (List.mem_cons_self _ _)
      have hcodd := hInv.oddCells c hc
      rcases hnb : carveNbrs g v c with _ | ⟨d0, ds⟩
      · have hInv2 : CarveInv g rest v := by
          refine ⟨hInv.startMem, fun z hz => hInv.stackSub z (by simp [hz]),
            hInv.oddCells, hInv.passages, hInv.reach, ?_, hInv.valRange,
            hInv.outerWalls⟩
          intro z hz
          rcases hInv.processed z hz with hzs | hdone
          · rcases List.mem_cons.mp hzs with rfl | hzr
            · right
              intro d hd hbnd
              have hall := List.filter_eq_nil_iff.mp hnb d hd
              simp only [decide_eq_true_eq] at hall
              by_contra hnin
              exact hall ⟨hbnd.1, hbnd.2.1, hbnd.2.2.1, hbnd.2.2.2, hnin⟩
            · exact Or.inl hzr
          · exact Or.inr hdone
        obtain ⟨g2, t2, v2, hrun, hdw, hdh, hsub, hfin⟩ :=
          ih g rest v t hInv2 (by
            simp only [List.length_cons] at hm
            omega)
        refine ⟨g2, t2, v2, ?_, hdw, hdh, hsub, hfin⟩
        simp only [carveLoop, hnb]
        exact hrun
      · have hlen : o t % (d0 :: ds).length < (d0 :: ds).length :=
          Nat.mod_lt _ (by simp)
        have hdmem : (d0 :: ds).getD (o t % (d0 :: ds).length) (0, 0) ∈
            carveNbrs g v c := by
          rw [hnb, List.getD_eq_getElem _ _ hlen]
          exact List.getElem_mem hlen
        set d := (d0 :: ds).getD (o t % (d0 :: ds).length) (0, 0) with hd
        obtain ⟨hdgen, hdec⟩ := List.mem_filter.mp hdmem
        have hdprop := of_decide_eq_true hdec
        obtain ⟨hb1, hb2, hb3, hb4, hnin⟩ := hdprop
        have hdvals : (d.1 = 0 ∧ d.1 / 2 = 0 ∧
              ((d.2 = 2 ∧ d.2 / 2 = 1) ∨ (d.2 = -2 ∧ d.2 / 2 = -1))) ∨
            (d.2 = 0 ∧ d.2 / 2 = 0 ∧
              ((d.1 = 2 ∧ d.1 / 2 = 1) ∨ (d.1 = -2 ∧ d.1 / 2 = -1))) := by
          simp only [genDirs, List.mem_cons, List.not_mem_nil, or_false] at hdgen
          rcases hdgen with h4 | h4 | h4 | h4 <;> rw [h4] <;> decide
        set n : Pos := (c.1 + d.1, c.2 + d.2) with hn
        set m : Pos := (c.1 + d.1 / 2, c.2 + d.2 / 2) with hmm2
        have hn1 : n.1 = c.1 + d.1 := rfl
        have hn2 : n.2 = c.2 + d.2 := rfl
        have hm1 : m.1 = c.1 + d.1 / 2 := rfl
        have hm2 : m.2 = c.2 + d.2 / 2 := rfl
        have hs1 : store g (c.2 + d.2 / 2) (c.1 + d.1 / 2) 0 =
            .ok (gridSet g (c.2 + d.2 / 2) (c.1 + d.1 / 2) 0) :=
          store_ok_of_inRange (by
            rcases hdvals with ⟨e1, e2, ⟨e3, e4⟩ | ⟨e3, e4⟩⟩ |
              ⟨e1, e2, ⟨e3, e4⟩ | ⟨e3, e4⟩⟩ <;>
              refine ⟨by omega, by omega, by omega, by omega⟩)
        have hs2 : store (gridSet g (c.2 + d.2 / 2) (c.1 + d.1 / 2) 0)
            (c.2 + d.2) (c.1 + d.1) 0 =
            .ok (gridSet (gridSet g (c.2 + d.2 / 2) (c.1 + d.1 / 2) 0)
              (c.2 + d.2) (c.1 + d.1) 0) :=
          store_ok_of_inRange (by
            simp only [gridSet_height, gridSet_width]
            refine ⟨by omega, by omega, by omega, by omega⟩)
        set g2 : Grid := gridSet (gridSet g (c.2 + d.2 / 2) (c.1 + d.1 / 2) 0)
          (c.2 + d.2) (c.1 + d.1) 0 with hg2
        have hg2w : g2.width = g.width := rfl
        have hg2h : g2.height = g.height := rfl
        have hg2cell : ∀ y x : Int, g2.cell y x =
            if y = c.2 + d.2 ∧ x = c.1 + d.1 then 0
            else if y = c.2 + d.2 / 2 ∧ x = c.1 + d.1 / 2 then 0
            else g.cell y x := by
          intro y x
          simp only [hg2, gridSet]
        have hmono : ∀ z : Pos, Passable g z → Passable g2 z := by
          intro z hz
          refine ⟨hz.1, ?_⟩
          rw [hg2cell]
          by_cases ha : z.2 = c.2 + d.2 ∧ z.1 = c.1 + d.1
          · rw [if_pos ha]; omega
          · rw [if_neg ha]
            by_cases hb : z.2 = c.2 + d.2 / 2 ∧ z.1 = c.1 + d.1 / 2
            · rw [if_pos hb]; omega
            · rw [if_neg hb]; exact hz.2
        have hpassm : Passable g2 m := by
          refine ⟨?_, ?_⟩
          · rcases hdvals with ⟨e1, e2, ⟨e3, e4⟩ | ⟨e3, e4⟩⟩ |
              ⟨e1, e2, ⟨e3, e4⟩ | ⟨e3, e4⟩⟩ <;>
              exact ⟨by omega, by omega, by omega, by omega⟩
          · rw [hg2cell]
            by_cases ha : m.2 = c.2 + d.2 ∧ m.1 = c.1 + d.1
            · rw [if_pos ha]; omega
            · rw [if_neg ha, if_pos ⟨rfl, rfl⟩]; omega
        have hpassn : Passable g2 n := by
          refine ⟨⟨by omega, by omega, by omega, by omega⟩, ?_⟩
          rw [hg2cell, if_pos ⟨rfl, rfl⟩]
          omega
        have hstepcm : UnitStep c m := by
          rcases hdvals with ⟨e1, e2, ⟨e3, e4⟩ | ⟨e3, e4⟩⟩ |
            ⟨e1, e2, ⟨e3, e4⟩ | ⟨e3, e4⟩⟩ <;>
            simp only [UnitStep] <;> omega
        have hstepmn : UnitStep m n := by
          rcases hdvals with ⟨e1, e2, ⟨e3, e4⟩ | ⟨e3, e4⟩⟩ |
            ⟨e1, e2, ⟨e3, e4⟩ | ⟨e3, e4⟩⟩ <;>
            simp only [UnitStep] <;> omega
        have hInv2 : CarveInv g2 (n :: c :: rest) (insert n v) := by
          refine ⟨Finset.mem_insert_of_mem hInv.startMem, ?_, ?_, ?_, ?_, ?_,
            ?_, ?_⟩
          · intro z hz
            rcases List.mem_cons.mp hz with rfl | hz2
            · exact Finset.mem_insert_self _ _
            · exact Finset.mem_insert_of_mem (hInv.stackSub z hz2)
          · intro z hz
            rcases Finset.mem_insert.mp hz with rfl | hz2
            · rcases hdvals with ⟨e1, e2, ⟨e3, e4⟩ | ⟨e3, e4⟩⟩ |
                ⟨e1, e2, ⟨e3, e4⟩ | ⟨e3, e4⟩⟩ <;>
                exact ⟨by omega, by omega, by omega, by omega, by omega, by omega⟩
            · have := hInv.oddCells z hz2
              exact ⟨this.1, this.2.1, this.2.2.1, this.2.2.2.1,
                this.2.2.2.2.1, this.2.2.2.2.2⟩
          · intro z hz
            rcases Finset.mem_insert.mp hz with rfl | hz2
            · rw [hg2cell, if_pos ⟨rfl, rfl⟩]
            · rw [hg2cell]
              by_cases ha : z.2 = c.2 + d.2 ∧ z.1 = c.1 + d.1
              · rw [if_pos ha]
              · rw [if_neg ha]
                by_cases hb : z.2 = c.2 + d.2 / 2 ∧ z.1 = c.1 + d.1 / 2
                · rw [if_pos hb]
                · rw [if_neg hb]
                  exact hInv.passages z hz2
          · intro z hz
            rcases Finset.mem_insert.mp hz with rfl | hz2
            · obtain ⟨pc, hpc⟩ := hInv.reach c hc
              exact ⟨(pc ++ [m]) ++ [n],
                validPath_snoc (validPath_snoc (validPath_mono hmono hpc)
                  hstepcm hpassm) hstepmn hpassn⟩
            · obtain ⟨pz, hpz⟩ := hInv.reach z hz2
              exact ⟨pz, validPath_mono hmono hpz⟩
          · intro z hz
            rcases Finset.mem_insert.mp hz with rfl | hz2
            · exact Or.inl (List.mem_cons_self _ _)
            · rcases hInv.processed z hz2 with hzs | hdone
              · exact Or.inl (List.mem_cons_of_mem _ hzs)
              · right
                intro d2 hd2 hbnd
                exact Finset.mem_insert_of_mem (hdone d2 hd2 (by
                  rw [hg2w, hg2h] at hbnd
                  exact hbnd))
          · intro y x
            rw [hg2cell]
            by_cases ha : y = c.2 + d.2 ∧ x = c.1 + d.1
            · rw [if_pos ha]; exact Or.inl rfl
            · rw [if_neg ha]
              by_cases hb : y = c.2 + d.2 / 2 ∧ x = c.1 + d.1 / 2
              · rw [if_pos hb]; exact Or.inl rfl
              · rw [if_neg hb]; exact hInv.valRange y x
          · intro y x hout
            rw [hg2w, hg2h] at hout
            rw [hg2cell]
            have hna : ¬(y = c.2 + d.2 ∧ x = c.1 + d.1) := by
              intro hcon
              exact hout ⟨by omega, by omega, by omega, by omega⟩
            have hnb2 : ¬(y = c.2 + d.2 / 2 ∧ x = c.1 + d.1 / 2) := by
              intro hcon
              rcases hdvals with ⟨e1, e2, ⟨e3, e4⟩ | ⟨e3, e4⟩⟩ |
                ⟨e1, e2, ⟨e3, e4⟩ | ⟨e3, e4⟩⟩ <;>
                exact hout ⟨by omega, by omega, by omega, by omega⟩
            rw [if_neg hna, if_neg hnb2]
            exact hInv.outerWalls y x hout
        have hcarve2 : carveCells g2 = carveCells g := rfl
        have hcard : (carveCells g2 \ insert n v).card + 1 =
            (carveCells g \ v).card := by
          rw [hcarve2]
          exact card_sdiff_insert_gen (mem_carveCells.mpr
            ⟨by omega, by omega, by omega, by omega⟩) hnin
        obtain ⟨g3, t3, v3, hrun, hdw, hdh, hsub, hfin⟩ :=
          ih g2 (n :: c :: rest) (insert n v) (t + 1) hInv2 (by
            simp only [List.length_cons] at hm ⊢
            omega)
        refine ⟨g3, t3, v3, ?_, by rw [hdw, hg2w], by rw [hdh, hg2h],
          (Finset.subset_insert _ _).trans hsub, hfin⟩
        simp only [carveLoop, hnb]
        rw [← hd]
        simp only [hs1, hs2]
        exact hrun

theorem carve_closed_step {g : Grid} {v : Finset Pos} (inv : CarveInv g [] v)
    {c : Pos} (hc : c ∈ v) (d : Pos) (hd : d ∈ genDirs)
    (h1 : 0 < c.1 + d.1) (h2 : c.1 + d.1 < g.width - 1)
    (h3 : 0 < c.2 + d.2) (h4 : c.2 + d.2 < g.height - 1) :
    (c.1 + d.1, c.2 + d.2) ∈ v := by
  rcases inv.processed c hc with hst | hnbr
  · simp at hst
  · exact hnbr d hd ⟨h1, h2, h3, h4⟩

/-- After the carving loop terminates, every odd-coordinate strict-interior
cell has been visited: the visited set contains `(1,1)` and is closed under
the in-bounds two-cell steps, and the odd sub-grid is connected. -/
theorem carve_all_odd {g : Grid} {v : Finset Pos} (inv : CarveInv g [] v) :
    ∀ (n : Nat) (x y : Int), x % 2 = 1 → y % 2 = 1 → 1 ≤ x → x ≤ g.width - 2 →
      1 ≤ y → y ≤ g.height - 2 → x + y ≤ (n : Int) → ((x, y) : Pos) ∈ v := by
  intro n
  induction n with
  | zero =>
    intro x y _ _ h1 _ h3 _ hn
    exact absurd hn (by omega)
  | succ n ihn =>
    intro x y hpx hpy h1 h2 h3 h4 hn
    by_cases hx1 : x = 1
    · by_cases hy1 : y = 1
      · subst hx1
        subst hy1
        exact inv.startMem
      · have hprev : ((x, y - 2) : Pos) ∈ v :=
          ihn x (y - 2) (by omega) (by omega) (by omega) (by omega) (by omega)
            (by omega) (by push_cast at hn ⊢; omega)
        have hstep := carve_closed_step inv hprev (0, 2) (by decide)
          (by simp only; omega) (by simp only; omega) (by simp only; omega)
          (by simp only; omega)
        have hco : (((x, y - 2) : Pos).1 + ((0 : Int), (2 : Int)).1,
            ((x, y - 2) : Pos).2 + ((0 : Int), (2 : Int)).2) = ((x, y) : Pos) := by
          rw [Prod.mk.injEq]
          constructor <;> simp only <;> omega
        rwa [hco] at hstep
    · have hprev : ((x - 2, y) : Pos) ∈ v :=
        ihn (x - 2) y (by omega) (by omega) (by omega) (by omega) (by omega)
          (by omega) (by push_cast at hn ⊢; omega)
      have hstep := carve_closed_step inv hprev (2, 0) (by decide)
        (by simp only; omega) (by simp only; omega) (by simp only; omega)
        (by simp only; omega)
      have hco : (((x - 2, y) : Pos).1 + ((2 : Int), (0 : Int)).1,
          ((x - 2, y) : Pos).2 + ((2 : Int), (0 : Int)).2) = ((x, y) : Pos) := by
        rw [Prod.mk.injEq]
        constructor <;> simp only <;> omega
      rwa [hco] at hstep

/-- Transport of reachability through the 180-degree rotation with endpoint
swap: mapping a path pointwise through the point reflection and reversing it
yields a path of the rotated maze from `(1,1)` to `(width-2, height-2)`. -/
theorem reach_after_rotate {g4 g5 : Grid} {w h : Int}
    (hgw : g4.width = w) (hgh : g4.height = h) (h5w : 5 ≤ w) (h5h : 5 ≤ h)
    (hg5w : g5.width = w) (hg5h : g5.height = h)
    (hcell : ∀ y x : Int, g5.cell y x =
      if y = h - 2 ∧ x = w - 2 then g4.cell (h - 2) (w - 2)
      else if y = 1 ∧ x = 1 then g4.cell 1 1
      else g4.cell (h - 1 - y) (w - 1 - x))
    (hstart : g4.cell 1 1 ≠ 1) (hexit : g4.cell (h - 2) (w - 2) ≠ 1)
    (hreach : ∃ p, ValidPath g4 (1, 1) (w - 2, h - 2) p) :
    ∃ p, ValidPath g5 (1, 1) (w - 2, h - 2) p := by
  obtain ⟨p, hh1, hl1, hc1, ht1⟩ := hreach
  have hallpass : ∀ z ∈ p, Passable g4 z := by
    intro z hz
    rcases p with _ | ⟨a, t⟩
    · simp at hz
    · rcases List.mem_cons.mp hz with rfl | hz2
      · have ha : z = ((1 : Int), (1 : Int)) := by simpa using hh1
        subst ha
        exact ⟨⟨by omega, by omega, by omega, by omega⟩, hstart⟩
      · exact ht1 z hz2
  have hmap : ∀ z : Pos, Passable g4 z →
      Passable g5 (w - 1 - z.1, h - 1 - z.2) := by
    intro z hz
    obtain ⟨⟨hz1, hz2, hz3, hz4⟩, hznw⟩ := hz
    rw [hgw] at hz2
    rw [hgh] at hz4
    refine ⟨⟨by simp only; omega, by simp only; omega, by simp only; omega,
      by simp only; omega⟩, ?_⟩
    show g5.cell (h - 1 - z.2) (w - 1 - z.1) ≠ 1
    rw [hcell]
    by_cases hA : h - 1 - z.2 = h - 2 ∧ w - 1 - z.1 = w - 2
    · rw [if_pos hA]
      exact hexit
    · rw [if_neg hA]
      by_cases hB : h - 1 - z.2 = 1 ∧ w - 1 - z.1 = 1
      · rw [if_pos hB]
        exact hstart
      · rw [if_neg hB]
        have e1 : h - 1 - (h - 1 - z.2) = z.2 := by omega
        have e2 : w - 1 - (w - 1 - z.1) = z.1 := by omega
        rw [e1, e2]
        exact hznw
  refine ⟨(p.map fun z => (w - 1 - z.1, h - 1 - z.2)).reverse, ?_, ?_, ?_, ?_⟩
  · rw [List.head?_reverse, List.getLast?_map, hl1]
    show some ((w - 1 - (w - 2), h - 1 - (h - 2)) : Pos) = some ((1 : Int), (1 : Int))
    rw [Option.some.injEq, Prod.mk.injEq]
    constructor <;> omega
  · rw [List.getLast?_reverse, List.head?_map, hh1]
    show some ((w - 1 - 1, h - 1 - 1) : Pos) = some ((w - 2 : Int), (h - 2 : Int))
    rw [Option.some.injEq, Prod.mk.injEq]
    constructor <;> omega
  · rw [List.chain'_reverse]
    rw [List.chain'_map]
    apply List.Chain'.imp ?_ hc1
    intro a b hab
    show UnitStep (w - 1 - b.1, h - 1 - b.2) (w - 1 - a.1, h - 1 - a.2)
    simp only [UnitStep] at hab ⊢
    omega
  · intro z hz
    have hz2 : z ∈ (p.map fun z => (w - 1 - z.1, h - 1 - z.2)).reverse :=
      List.mem_of_mem_tail hz
    rw [List.mem_reverse, List.mem_map] at hz2
    obtain ⟨a, ha, rfl⟩ := hz2
    exact hmap a (hallpass a ha)

/-- Master specification of `generate_maze` for odd dimensions at least
five: generation succeeds, borders are walls, there is exactly one entry at
`(1,1)` and one exit at `(width-2, height-2)`, and the exit is reachable
from the entry through non-wall cells. -/
theorem generateMaze_spec (o : Oracle) (dif : Difficulty) (w h : Int)
    (hw : w % 2 = 1) (hh : h % 2 = 1) (hw5 : 5 ≤ w) (hh5 : 5 ≤ h) :
    ∃ g, generateMaze o dif w h = .ok g ∧ g.width = w ∧ g.height = h ∧
      g.cell 1 1 = 2 ∧ g.cell (h - 2) (w - 2) = 3 ∧
      (∀ y x : Int, 0 ≤ x → x < w → 0 ≤ y → y < h →
        (y = 0 ∨ y = h - 1 ∨ x = 0 ∨ x = w - 1) → g.cell y x = 1) ∧
      UniqueCell g 2 (1, 1) ∧ UniqueCell g 3 (w - 2, h - 2) ∧
      (∃ p, ValidPath g (1, 1) (w - 2, h - 2) p) := by
  set g0 : Grid := ⟨w, h, fun _ _ => 1⟩ with hg0
  set g1 : Grid := gridSet g0 1 1 0 with hg1def
  have hg1w : g1.width = w := rfl
  have hg1h : g1.height = h := rfl
  have hst1 : store g0 1 1 0 = .ok g1 :=
    store_ok_of_inRange ⟨by omega, by show (1 : Int) < h; omega,
      by omega, by show (1 : Int) < w; omega⟩
  have hg1cell : ∀ y x : Int, g1.cell y x = if y = 1 ∧ x = 1 then 0 else 1 := by
    intro y x
    simp only [hg1def, gridSet, hg0]
  have hInv1 : CarveInv g1 [(1, 1)] {(1, 1)} := by
    refine ⟨Finset.mem_singleton_self _, ?_, ?_, ?_, ?_, ?_, ?_, ?_⟩
    · intro c hc
      rcases List.mem_singleton.mp hc with rfl
      exact Finset.mem_singleton_self _
    · intro c hc
      rcases Finset.mem_singleton.mp hc with rfl
      refine ⟨by decide, by decide, by decide, ?_, by decide, ?_⟩
      · show (1 : Int) < g1.width - 1
        rw [hg1w]
        omega
      · show (1 : Int) < g1.height - 1
        rw [hg1h]
        omega
    · intro c hc
      rcases Finset.mem_singleton.mp hc with rfl
      show g1.cell 1 1 = 0
      rw [hg1cell]
      decide
    · intro c hc
      rcases Finset.mem_singleton.mp hc with rfl
      exact ⟨[(1, 1)], validPath_singleton g1 (1, 1)⟩
    · intro c hc
      rcases Finset.mem_singleton.mp hc with rfl
      exact Or.inl (List.mem_singleton.mpr rfl)
    · intro y x
      rw [hg1cell]
      by_cases hyx : y = 1 ∧ x = 1
      · rw [if_pos hyx]; exact Or.inl rfl
      · rw [if_neg hyx]; exact Or.inr rfl
    · intro y x hout
      rw [hg1w, hg1h] at hout
      rw [hg1cell]
      have : ¬(y = 1 ∧ x = 1) := by
        intro hcon
        exact hout ⟨by omega, by omega, by omega, by omega⟩
      rw [if_neg this]
  have hcardcc : (carveCells g1).card = (w - 2).toNat * (h - 2).toNat := by
    simp only [carveCells, Finset.card_product, Int.card_Icc, hg1w, hg1h]
    have e1 : w - 2 + 1 - 1 = w - 2 := by omega
    have e2 : h - 2 + 1 - 1 = h - 2 := by omega
    rw [e1, e2]
  have hmeas1 : 2 * ((carveCells g1) \ {((1, 1) : Pos)}).card +
      ([((1, 1) : Pos)]).length < carveFuel g0 := by
    have hle : ((carveCells g1) \ {((1, 1) : Pos)}).card ≤ (carveCells g1).card :=
      Finset.card_le_card Finset.sdiff_subset
    have hm1 : (w - 2).toNat ≤ w.toNat := Int.toNat_le_toNat (by omega)
    have hm2 : (h - 2).toNat ≤ h.toNat := Int.toNat_le_toNat (by omega)
    have hmul : (w - 2).toNat * (h - 2).toNat ≤ w.toNat * h.toNat :=
      Nat.mul_le_mul hm1 hm2
    have hfuel : carveFuel g0 = 2 * (w.toNat * h.toNat) + 2 := rfl
    rw [hfuel]
    simp only [List.length_singleton]
    omega
  obtain ⟨g2, t2, v2, hcar, hg2w, hg2h, hsub2, inv2⟩ :=
    carveLoop_spec o (carveFuel g0) g1 [(1, 1)] {(1, 1)} 0 hInv1 hmeas1
  rw [hg1w] at hg2w
  rw [hg1h] at hg2h
  have hexitmem : ((w - 2, h - 2) : Pos) ∈ v2 := by
    apply carve_all_odd inv2 ((w + h).toNat) (w - 2) (h - 2) (by omega)
      (by omega) (by omega) (by rw [hg2w]) (by omega) (by rw [hg2h]) (by omega)
  have hreach2 : ∃ p, ValidPath g2 (1, 1) (w - 2, h - 2) p :=
    inv2.reach _ hexitmem
  have houter2 : ∀ y x : Int, ¬(1 ≤ x ∧ x ≤ w - 2 ∧ 1 ≤ y ∧ y ≤ h - 2) →
      g2.cell y x = 1 := by
    intro y x hx
    exact inv2.outerWalls y x (by rw [hg2w, hg2h]; exact hx)
  obtain ⟨g3, t3, hext, hg3w, hg3h, hdisj3, hzero3⟩ :=
    extraLoop_spec o (extraCount w h dif) g2 t2 (by rw [hg2w]; omega)
      (by rw [hg2h]; omega)
  rw [hg2w] at hg3w
  rw [hg2h] at hg3h
  have hval3 : ∀ y x : Int, g3.cell y x = 0 ∨ g3.cell y x = 1 := by
    intro y x
    rcases hdisj3 y x with heq | ⟨h0, _⟩
    · rw [heq]; exact inv2.valRange y x
    · exact Or.inl h0
  have houter3 : ∀ y x : Int, ¬(1 ≤ x ∧ x ≤ w - 2 ∧ 1 ≤ y ∧ y ≤ h - 2) →
      g3.cell y x = 1 := by
    intro y x hx
    rcases hdisj3 y x with heq | ⟨_, _, hx1, hx2, hy1, hy2, _⟩
    · rw [heq]; exact houter2 y x hx
    · rw [hg2w] at hx2
      rw [hg2h] at hy2
      exact absurd ⟨by omega, by omega, by omega, by omega⟩ hx
  have hmono23 : ∀ z : Pos, Passable g2 z → Passable g3 z := by
    intro z hz
    refine ⟨⟨hz.1.1, by rw [hg3w, ← hg2w]; exact hz.1.2.1,
      hz.1.2.2.1, by rw [hg3h, ← hg2h]; exact hz.1.2.2.2⟩, ?_⟩
    rcases hdisj3 z.2 z.1 with heq | ⟨h0, _⟩
    · rw [heq]; exact hz.2
    · rw [h0]; omega
  have hreach3 : ∃ p, ValidPath g3 (1, 1) (w - 2, h - 2) p := by
    obtain ⟨p, hp⟩ := hreach2
    exact ⟨p, validPath_mono hmono23 hp⟩
  obtain ⟨g4, hsse, hg4w, hg4h, hcell4raw⟩ :=
    setStartEnd_spec (g := g3) (by rw [hg3w]; omega) (by rw [hg3h]; omega)
  rw [hg3w] at hg4w
  rw [hg3h] at hg4h
  have hcell4 : ∀ y x : Int, g4.cell y x =
      if y = h - 3 ∧ x = w - 2 then 0
      else if y = h - 2 ∧ x = w - 3 then 0
      else if y = 2 ∧ x = 1 then 0
      else if y = 1 ∧ x = 2 then 0
      else if y = h - 2 ∧ x = w - 2 then 3
      else if y = 1 ∧ x = 1 then 2
      else g3.cell y x := by
    intro y x
    have := hcell4raw y x
    rw [hg3w, hg3h] at this
    exact this
  have hg4_11 : g4.cell 1 1 = 2 := by
    rw [hcell4]
    rw [if_neg (by intro hcon; omega), if_neg (by intro hcon; omega),
      if_neg (by intro hcon; omega), if_neg (by intro hcon; omega),
      if_neg (by intro hcon; omega), if_pos ⟨rfl, rfl⟩]
  have hg4_ex : g4.cell (h - 2) (w - 2) = 3 := by
    rw [hcell4]
    rw [if_neg (by intro hcon; omega), if_neg (by intro hcon; omega),
      if_neg (by intro hcon; omega), if_neg (by intro hcon; omega),
      if_pos ⟨rfl, rfl⟩]
  have hg4val : ∀ y x : Int, ¬(y = 1 ∧ x = 1) → ¬(y = h - 2 ∧ x = w - 2) →
      (g4.cell y x = 0 ∨ g4.cell y x = 1) := by
    intro y x hn1 hn2
    rw [hcell4]
    by_cases c1 : y = h - 3 ∧ x = w - 2
    · rw [if_pos c1]; exact Or.inl rfl
    rw [if_neg c1]
    by_cases c2 : y = h - 2 ∧ x = w - 3
    · rw [if_pos c2]; exact Or.inl rfl
    rw [if_neg c2]
    by_cases c3 : y = 2 ∧ x = 1
    · rw [if_pos c3]; exact Or.inl rfl
    rw [if_neg c3]
    by_cases c4 : y = 1 ∧ x = 2
    · rw [if_pos c4]; exact Or.inl rfl
    rw [if_neg c4, if_neg hn2, if_neg hn1]
    exact hval3 y x
  have hg4outer : ∀ y x : Int, ¬(1 ≤ x ∧ x ≤ w - 2 ∧ 1 ≤ y ∧ y ≤ h - 2) →
      g4.cell y x = 1 := by
    intro y x hout
    rw [hcell4]
    rw [if_neg (by intro hcon; exact hout ⟨by omega, by omega, by omega, by omega⟩),
      if_neg (by intro hcon; exact hout ⟨by omega, by omega, by omega, by omega⟩),
      if_neg (by intro hcon; exact hout ⟨by omega, by omega, by omega, by omega⟩),
      if_neg (by intro hcon; exact hout ⟨by omega, by omega, by omega, by omega⟩),
      if_neg (by intro hcon; exact hout ⟨by omega, by omega, by omega, by omega⟩),
      if_neg (by intro hcon; exact hout ⟨by omega, by omega, by omega, by omega⟩)]
    exact houter3 y x hout
  have hmono34 : ∀ z : Pos, Passable g3 z → Passable g4 z := by
    intro z hz
    refine ⟨⟨hz.1.1, by rw [hg4w, ← hg3w]; exact hz.1.2.1,
      hz.1.2.2.1, by rw [hg4h, ← hg3h]; exact hz.1.2.2.2⟩, ?_⟩
    rw [hcell4]
    split_ifs
    · omega
    · omega
    · omega
    · omega
    · omega
    · omega
    · exact hz.2
  have hreach4 : ∃ p, ValidPath g4 (1, 1) (w - 2, h - 2) p := by
    obtain ⟨p, hp⟩ := hreach3
    exact ⟨p, validPath_mono hmono34 hp⟩
  obtain ⟨g5, hrot, hg5w, hg5h, hcell5raw⟩ :=
    rotateMaze_spec (g := g4) (by rw [hg4h]; omega) (by rw [hg4w]; omega)
  rw [hg4w] at hg5w
  rw [hg4h] at hg5h
  have hcell5 : ∀ y x : Int, g5.cell y x =
      if y = h - 2 ∧ x = w - 2 then g4.cell (h - 2) (w - 2)
      else if y = 1 ∧ x = 1 then g4.cell 1 1
      else g4.cell (h - 1 - y) (w - 1 - x) := by
    intro y x
    have hyx := hcell5raw y x
    rw [hg4w, hg4h] at hyx
    exact hyx
  have hreach5 : ∃ p, ValidPath g5 (1, 1) (w - 2, h - 2) p :=
    reach_after_rotate hg4w hg4h hw5 hh5 hg5w hg5h hcell5
      (by rw [hg4_11]; omega) (by rw [hg4_ex]; omega) hreach4
  have h511 : g5.cell 1 1 = 2 := by
    rw [hcell5, if_neg (by omega), if_pos ⟨rfl, rfl⟩]
    exact hg4_11
  have h5ex : g5.cell (h - 2) (w - 2) = 3 := by
    rw [hcell5, if_pos ⟨rfl, rfl⟩]
    exact hg4_ex
  have hborder : ∀ y x : Int, 0 ≤ x → x < w → 0 ≤ y → y < h →
      (y = 0 ∨ y = h - 1 ∨ x = 0 ∨ x = w - 1) → g5.cell y x = 1 := by
    intro y x hx0 hxw hy0 hyh hb
    rw [hcell5, if_neg (by omega), if_neg (by omega)]
    apply hg4outer
    omega
  have huniq2 : UniqueCell g5 2 (1, 1) := by
    refine ⟨mem_gridCells.mpr ?_, h511, ?_⟩
    · show (0 : Int) ≤ 1 ∧ (1 : Int) < g5.width ∧
        (0 : Int) ≤ 1 ∧ (1 : Int) < g5.height
      rw [hg5w, hg5h]
      exact ⟨by omega, by omega, by omega, by omega⟩
    · intro p hp hpv
      obtain ⟨hx0, hxw, hy0, hyh⟩ : InRange g5 p := mem_gridCells.mp hp
      rw [hg5w] at hxw
      rw [hg5h] at hyh
      rw [hcell5] at hpv
      by_cases c1 : p.2 = h - 2 ∧ p.1 = w - 2
      · rw [if_pos c1, hg4_ex] at hpv
        exact absurd hpv (by decide)
      · rw [if_neg c1] at hpv
        by_cases c2 : p.2 = 1 ∧ p.1 = 1
        · exact Prod.ext_iff.mpr ⟨c2.2, c2.1⟩
        · rw [if_neg c2] at hpv
          rcases hg4val (h - 1 - p.2) (w - 1 - p.1) (by omega) (by omega)
            with h0 | h0 <;> rw [h0] at hpv <;> exact absurd hpv (by decide)
  have huniq3 : UniqueCell g5 3 (w - 2, h - 2) := by
    refine ⟨mem_gridCells.mpr ?_, h5ex, ?_⟩
    · show (0 : Int) ≤ w - 2 ∧ w - 2 < g5.width ∧
        (0 : Int) ≤ h - 2 ∧ h - 2 < g5.height
      rw [hg5w, hg5h]
      exact ⟨by omega, by omega, by omega, by omega⟩
    · intro p hp hpv
      obtain ⟨hx0, hxw, hy0, hyh⟩ : InRange g5 p := mem_gridCells.mp hp
      rw [hg5w] at hxw
      rw [hg5h] at hyh
      rw [hcell5] at hpv
      by_cases c1 : p.2 = h - 2 ∧ p.1 = w - 2
      · exact Prod.ext_iff.mpr ⟨c1.2, c1.1⟩
      · rw [if_neg c1] at hpv
        by_cases c2 : p.2 = 1 ∧ p.1 = 1
        · rw [if_pos c2, hg4_11] at hpv
          exact absurd hpv (by decide)
        · rw [if_neg c2] at hpv
          rcases hg4val (h - 1 - p.2) (w - 1 - p.1) (by omega) (by omega)
            with h0 | h0 <;> rw [h0] at hpv <;> exact absurd hpv (by decide)
  have hext2 : extraLoop o (extraCount w h dif) ((g2, t2) : Grid × Nat).1
      ((g2, t2) : Grid × Nat).2 = .ok (g3, t3) := hext
  have hsse2 : setStartEnd ((g3, t3) : Grid × Nat).1 = .ok g4 := hsse
  have hrun : generateMaze o dif w h = .ok g5 := by
    simp only [generateMaze]
    rw [if_pos hw, if_pos hh, ← hg0]
    simp only [hst1, except_bind_ok, hcar, hext, hext2, hsse, hsse2, hrot]
  exact ⟨g5, hrun, hg5w, hg5h, h511, h5ex, hborder, huniq2, huniq3, hreach5⟩

/-! ## Claims about generated mazes -/

/-- A cell uniquely characterized as the only one carrying state `k` gives
exactly one such cell among all in-range cells of the grid. -/
theorem uniqueCell_filter_card {g : Grid} {k : Nat} {c : Pos}
    (h : UniqueCell g k c) :
    ((gridCells g).filter fun p => g.cell p.2 p.1 = k).card = 1 := by
  have hone : (gridCells g).filter (fun p => g.cell p.2 p.1 = k) = {c} := by
    apply Finset.eq_singleton_iff_unique_mem.mpr
    refine ⟨Finset.mem_filter.mpr ⟨h.1, h.2.1⟩, ?_⟩
    intro x hx
    obtain ⟨hx1, hx2⟩ := Finset.mem_filter.mp hx
    exact h.2.2 x hx1 hx2
  rw [hone, Finset.card_singleton]

/-- C6: every maze produced by `generate_maze` for odd dimensions at least
five has all of its border cells — row `0`, row `height-1`, column `0` and
column `width-1` — in the wall state `1`. -/
theorem c6_border_walls (o : Oracle) (dif : Difficulty) (w h : Int)
    (hw : w % 2 = 1) (hh : h % 2 = 1) (hw5 : 5 ≤ w) (hh5 : 5 ≤ h) :
    ∃ g, generateMaze o dif w h = .ok g ∧ g.width = w ∧ g.height = h ∧
      ∀ y x : Int, 0 ≤ x → x < w → 0 ≤ y → y < h →
        (y = 0 ∨ y = h - 1 ∨ x = 0 ∨ x = w - 1) → g.cell y x = 1 := by
  obtain ⟨g, hg, hgw, hgh, _, _, hb, _, _, _⟩ :=
    generateMaze_spec o dif w h hw hh hw5 hh5
  exact ⟨g, hg, hgw, hgh, hb⟩

/-- Witness for C6 at the constant-zero oracle, hard difficulty and
dimensions 5 by 5. -/
theorem c6_border_walls_witness :
    (5 : Int) % 2 = 1 ∧ (5 : Int) ≤ 5 ∧
    (∃ g, generateMaze (fun _ => 0) Difficulty.hard 5 5 = .ok g ∧
      g.width = 5 ∧ g.height = 5 ∧
      ∀ y x : Int, 0 ≤ x → x < 5 → 0 ≤ y → y < 5 →
        (y = 0 ∨ y = 5 - 1 ∨ x = 0 ∨ x = 5 - 1) → g.cell y x = 1) :=
  ⟨by decide, by decide,
    c6_border_walls (fun _ => 0) Difficulty.hard 5 5 (by decide) (by decide)
      (by decide) (by decide)⟩

/-- C2: every maze produced by `generate_maze` for odd dimensions at least
five contains exactly one cell in the entry state `2` and exactly one cell
in the exit state `3`. -/
theorem c2_unique_entry_exit (o : Oracle) (dif : Difficulty) (w h : Int)
    (hw : w % 2 = 1) (hh : h % 2 = 1) (hw5 : 5 ≤ w) (hh5 : 5 ≤ h) :
    ∃ g, generateMaze o dif w h = .ok g ∧
      ((gridCells g).filter fun p => g.cell p.2 p.1 = 2).card = 1 ∧
      ((gridCells g).filter fun p => g.cell p.2 p.1 = 3).card = 1 := by
  obtain ⟨g, hg, _, _, _, _, _, hu2, hu3, _⟩ :=
    generateMaze_spec o dif w h hw hh hw5 hh5
  exact ⟨g, hg, uniqueCell_filter_card hu2, uniqueCell_filter_card hu3⟩

/-- Witness for C2 at the constant-zero oracle, hard difficulty and
dimensions 5 by 5. -/
theorem c2_unique_entry_exit_witness :
    (5 : Int) % 2 = 1 ∧ (5 : Int) ≤ 5 ∧
    (∃ g, generateMaze (fun _ => 0) Difficulty.hard 5 5 = .ok g ∧
      ((gridCells g).filter fun p => g.cell p.2 p.1 = 2).card = 1 ∧
      ((gridCells g).filter fun p => g.cell p.2 p.1 = 3).card = 1) :=
  ⟨by decide, by decide,
    c2_unique_entry_exit (fun _ => 0) Difficulty.hard 5 5 (by decide)
      (by decide) (by decide) (by decide)⟩

/-- C1: every maze produced by `generate_maze` for odd dimensions at least
five is solvable: `solve_bfs` returns a non-empty path of length at least
one whose first element is the entry cell `(1,1)` (state `2`) and whose last
element is the exit cell `(width-2, height-2)` (state `3`). -/
theorem c1_generated_solvable (o : Oracle) (dif : Difficulty) (w h : Int)
    (hw : w % 2 = 1) (hh : h % 2 = 1) (hw5 : 5 ≤ w) (hh5 : 5 ≤ h) :
    ∃ g, generateMaze o dif w h = .ok g ∧
      solveBFS g ≠ [] ∧ 1 ≤ (solveBFS g).length ∧
      (solveBFS g).head? = some (1, 1) ∧
      (solveBFS g).getLast? = some (w - 2, h - 2) ∧
      g.cell 1 1 = 2 ∧ g.cell (h - 2) (w - 2) = 3 := by
  obtain ⟨g, hg, _, _, h2c, h3c, _, hu2, hu3, hreach⟩ :=
    generateMaze_spec o dif w h hw hh hw5 hh5
  have hs : findStart g = ((1, 1) : Pos) := findStart_eq hu2
  have he : findEnd g = ((w - 2, h - 2) : Pos) := findEnd_eq hu3
  obtain ⟨_, hsound, hcomp⟩ := solveBFS_main g
  have hne : solveBFS g ≠ [] := by
    apply hcomp
    rw [hs, he]
    exact hreach
  obtain ⟨hvp, _, _⟩ := hsound hne
  refine ⟨g, hg, hne, ?_, ?_, ?_, h2c, h3c⟩
  · have hpos := validPath_length_pos hvp
    omega
  · rw [← hs]
    exact hvp.1
  · rw [← he]
    exact hvp.2.1

/-- Witness for C1 at the constant-zero oracle, hard difficulty and
dimensions 5 by 5. -/
theorem c1_generated_solvable_witness :
    (5 : Int) % 2 = 1 ∧ (5 : Int) ≤ 5 ∧
    (∃ g, generateMaze (fun _ => 0) Difficulty.hard 5 5 = .ok g ∧
      solveBFS g ≠ [] ∧ 1 ≤ (solveBFS g).length ∧
      (solveBFS g).head? = some (1, 1) ∧
      (solveBFS g).getLast? = some (5 - 2, 5 - 2) ∧
      g.cell 1 1 = 2 ∧ g.cell (5 - 2) (5 - 2) = 3) :=
  ⟨by decide, by decide,
    c1_generated_solvable (fun _ => 0) Difficulty.hard 5 5 (by decide)
      (by decide) (by decide) (by decide)⟩
